import Mathlib

set_option linter.unusedSectionVars false

/-!
Shallow embedding of the effect-resolution engine of `src/src/App.tsx`
(a timeline tool that expands skill-cast events into time-bounded stat-modifier
instances, resolves slot conflicts, assigns display lanes, and answers
point-in-time stat queries).

Modelling conventions:
* JavaScript numbers are modelled by an arbitrary linearly ordered commutative
  ring `K` (the engine only adds, multiplies, negates, and compares its
  numbers; `ℚ` is the intended instance, and concrete witnesses use `ℤ`).
  The claims under study are order/structure properties, not float-rounding
  properties.
* TypeScript optional fields (and fields that the source guards with `??`)
  are modelled as `Option`.
* JavaScript `Record`/`Map` values are modelled as association lists that keep
  the source's insertion-order semantics.
* `Array.prototype.sort` (stable since ES2019) is modelled by the stable
  `List.insertionSort`; `String.prototype.localeCompare` is modelled by the
  lexicographic order on `String` (any deterministic total order; the claims
  only depend on it being one).
-/

namespace TlPuzzle

inductive TargetMode where
  | self | all | student | enemy
deriving DecidableEq, Repr

inductive EffectKind where
  | buff | debuff | attack
deriving DecidableEq, Repr

inductive BuffStat where
  | atk | crit | critDmg
deriving DecidableEq, Repr

inductive SkillType where
  | ex | ns
deriving DecidableEq, Repr

structure Buff (K : Type) where
  id : String
  name : String
  kind : Option EffectKind
  stat : BuffStat
  value : K
  duration : Option K
  stackGroup : String
  target : Option TargetMode
  targetStudentIds : Option (List String)
deriving DecidableEq, Repr

structure ExSkill (K : Type) where
  id : String
  name : String
  buffs : List (Buff K)
deriving DecidableEq, Repr

structure NormalAttack (K : Type) where
  hitRate : K
  multiplier : K
deriving DecidableEq, Repr

structure NSkill (K : Type) where
  id : String
  name : String
  buffs : List (Buff K)
  stackGroup : String
deriving DecidableEq, Repr

structure Stats (K : Type) where
  atk : K
  crit : K
  critDmg : K
deriving DecidableEq, Repr

structure Student (K : Type) where
  id : String
  name : String
  stats : Stats K
  normal : NormalAttack K
  ns : Option (NSkill K)
  ex : List (ExSkill K)
deriving DecidableEq, Repr

/-- The value type of `ExEvent.buffTargets` entries and of `nsTargets`. -/
structure TargetOverride where
  target : TargetMode
  targetStudentIds : Option (List String)
deriving DecidableEq, Repr

structure ExEvent (K : Type) where
  id : String
  studentId : String
  skillType : SkillType
  skillId : String
  start : K
  duration : Option K
  target : TargetMode
  targetStudentIds : Option (List String)
  buffTargets : Option (List (String × TargetOverride))
deriving DecidableEq, Repr

structure BuffInstance (K : Type) where
  id : String
  studentId : String
  sourceStudentId : String
  name : String
  kind : EffectKind
  stat : BuffStat
  value : K
  start : K
  stop : K
  stackGroup : String
  source : SkillType
  sourceId : String
  sourceEventId : Option String
  sourceBuffId : String
deriving DecidableEq, Repr

def ENEMY_ID : String := "enemy"
def DEFAULT_TIMELINE_SECONDS : ℚ := 60
def DEFAULT_TIME_STEP : ℚ := 1/10

variable {K : Type} [LinearOrderedCommRing K]

def DEFAULT_EX_EVENT_DURATION : K := 1

/-- Truthiness of `xs?.length` for an optional array: true iff present and nonempty. -/
def optNonempty (o : Option (List String)) : Bool :=
  match o with
  | some (_ :: _) => true
  | _ => false

/-- JS object lookup `record?.[key]` for a `Record<string, TargetOverride>`. -/
def recordGet (o : Option (List (String × TargetOverride))) (k : String) :
    Option TargetOverride :=
  (o.getD []).lookup k

/-- `getSkillDuration` from the source: the max positive buff duration, else the
fallback (`buff.duration || 0` treats an absent duration as 0). -/
def getSkillDuration (buffs : List (Buff K)) (fallback : K) : K :=
  let mx := buffs.foldl (fun current b => max current (b.duration.getD 0)) 0
  if mx > 0 then mx else fallback

/-- The skill a cast event refers to, reduced to the fields the engine reads. -/
structure SkillRef (K : Type) where
  id : String
  buffs : List (Buff K)

def findStudent (students : List (Student K)) (id : String) :
    Option (Student K) :=
  students.find? (fun item => item.id = id)

def findSkill (student : Student K) (skillType : SkillType) (skillId : String) :
    Option (SkillRef K) :=
  match skillType with
  | .ex => (student.ex.find? (fun item => item.id = skillId)).map
      (fun s => ⟨s.id, s.buffs⟩)
  | .ns =>
    match student.ns with
    | some ns => if ns.id = skillId then some ⟨ns.id, ns.buffs⟩ else none
    | none => none

/-- `override?.target ?? buff.target ?? event.target`. -/
def resolveTargetMode (event : ExEvent K) (buff : Buff K) : TargetMode :=
  match recordGet event.buffTargets buff.id with
  | some o => o.target
  | none => buff.target.getD event.target

/-- The `rawTargets` conditional chain of `buildBuffInstances`. -/
def rawTargets (allStudentIds : List String) (event : ExEvent K) (buff : Buff K)
    (targetMode : TargetMode) : List String :=
  match targetMode with
  | .enemy => [ENEMY_ID]
  | .student =>
    let override := recordGet event.buffTargets buff.id
    if optNonempty (override.bind (fun o => o.targetStudentIds)) then
      (override.bind (fun o => o.targetStudentIds)).getD []
    else
      match buff.target with
      | some _ =>
        if optNonempty buff.targetStudentIds then buff.targetStudentIds.getD []
        else [event.studentId]
      | none =>
        if optNonempty event.targetStudentIds then event.targetStudentIds.getD []
        else [event.studentId]
  | .all => allStudentIds
  | .self => [event.studentId]

/-- Filtering against the valid-target universe plus the empty-list fallback. -/
def finalTargets (allStudentIds : List String) (event : ExEvent K)
    (buff : Buff K) (targetMode : TargetMode) : List String :=
  let allTargetIds := allStudentIds ++ [ENEMY_ID]
  let target := (rawTargets allStudentIds event buff targetMode).filter
    (fun id => allTargetIds.contains id)
  match targetMode with
  | .enemy => [ENEMY_ID]
  | _ => if target.isEmpty then [event.studentId] else target

/-- The duration chosen by the instance expander for one buff of one event. -/
def instDuration (timeStep : K) (event : ExEvent K) (buff : Buff K)
    (kind : EffectKind) : K :=
  match kind with
  | .attack => max timeStep (buff.duration.getD timeStep)
  | _ => event.duration.getD (buff.duration.getD timeStep)

/-- `buildBuffInstances` from the source.  `nsEnabled` and `nsTargets` are
parameters of the source function that its body never reads (NS skills are
timeline placements only). -/
def buildBuffInstances (students : List (Student K)) (events : List (ExEvent K))
    (nsEnabled : List (String × Bool))
    (nsTargets : List (String × TargetOverride))
    (timelineSeconds timeStep : K) : List (BuffInstance K) :=
  let _ := nsEnabled
  let _ := nsTargets
  let allStudentIds := students.map (fun student => student.id)
  events.flatMap (fun event =>
    match findStudent students event.studentId with
    | none => []
    | some student =>
      match findSkill student event.skillType event.skillId with
      | none => []
      | some skill =>
        skill.buffs.flatMap (fun buff =>
          let kind := buff.kind.getD .buff
          let targetMode := resolveTargetMode event buff
          let duration := instDuration timeStep event buff kind
          let stop := min (event.start + duration) timelineSeconds
          (finalTargets allStudentIds event buff targetMode).map
            (fun targetStudentId =>
              { id := event.id ++ ":" ++ buff.id ++ ":" ++ targetStudentId
                studentId := targetStudentId
                sourceStudentId := student.id
                name := buff.name
                kind := kind
                stat := buff.stat
                value := buff.value
                start := event.start
                stop := stop
                stackGroup := buff.stackGroup
                source := event.skillType
                sourceId := skill.id
                sourceEventId := some event.id
                sourceBuffId := buff.id })))

def statName : BuffStat → String
  | .atk => "atk"
  | .crit => "crit"
  | .critDmg => "critDmg"

def kindName : EffectKind → String
  | .buff => "buff"
  | .debuff => "debuff"
  | .attack => "attack"

/-- The grouping key string of `applyOverwriteRules`. -/
def slotKey (b : BuffInstance K) : String :=
  b.studentId ++ ":" ++ statName b.stat ++ ":" ++ b.stackGroup ++ ":" ++
    kindName b.kind

/-- First-occurrence deduplication with an accumulator of already-seen keys. -/
def nubAux : List String → List String → List String
  | [], _ => []
  | k :: ks, seen =>
    if k ∈ seen then nubAux ks seen else k :: nubAux ks (k :: seen)

/-- Keys of a JS `Map` built by successive inserts: first-occurrence order,
no duplicates. -/
def nubKeys (l : List String) : List String :=
  nubAux l []

/-- The sort comparator `(a, b) => a.start - b.start || a.id.localeCompare(b.id)`
as a "less or equal" relation. -/
def instLE (a b : BuffInstance K) : Prop :=
  a.start < b.start ∨ (a.start = b.start ∧ a.id ≤ b.id)

instance : DecidableRel (@instLE K _) := fun a b => by
  unfold instLE; infer_instance

/-- One step of the overwrite sweep.  The accumulator holds the `trimmed`
array in reverse order (head = most recently pushed). -/
def sweepStep (trimmed : List (BuffInstance K)) (b : BuffInstance K) :
    List (BuffInstance K) :=
  match trimmed with
  | [] => [b]
  | last :: rest =>
    if b.start < last.stop then
      let last' := { last with stop := min last.stop b.start }
      if last'.stop ≤ last'.start then b :: rest else b :: last' :: rest
    else b :: last :: rest

/-- The left-to-right sweep of `applyOverwriteRules` over one sorted group. -/
def sweep (l : List (BuffInstance K)) : List (BuffInstance K) :=
  (l.foldl sweepStep []).reverse

/-- Sort one slot group, sweep it, and drop collapsed instances. -/
def processGroup (l : List (BuffInstance K)) : List (BuffInstance K) :=
  (sweep (l.insertionSort instLE)).filter (fun b => b.stop > b.start)

/-- `applyOverwriteRules` from the source: group by slot key (insertion order),
sort each group by start then id, sweep trimming overlaps, drop empty
instances. -/
def applyOverwriteRules (instances : List (BuffInstance K)) :
    List (BuffInstance K) :=
  (nubKeys (instances.map slotKey)).flatMap
    (fun k => processGroup (instances.filter (fun b => slotKey b = k)))

/-- Lane lookup in the `laneMap` record; assignments are consed, so the head
find is the last write, matching JS record assignment. -/
def laneOf (laneMap : List (String × Nat)) (id : String) : Option Nat :=
  (laneMap.find? (fun p => p.1 = id)).map (fun p => p.2)

structure LaneResult where
  laneMap : List (String × Nat)
  laneCount : Nat
deriving Repr

def laneStep (st : List K × List (String × Nat)) (b : BuffInstance K) :
    List K × List (String × Nat) :=
  let laneEnds := st.1
  let laneMap := st.2
  match laneEnds.findIdx? (fun e => b.start ≥ e) with
  | none => (laneEnds ++ [b.stop], (b.id, laneEnds.length) :: laneMap)
  | some laneIndex => (laneEnds.set laneIndex b.stop, (b.id, laneIndex) :: laneMap)

/-- The comparator `(a, b) => a.start - b.start` of `buildBuffLanes`. -/
def startLE (a b : BuffInstance K) : Prop :=
  a.start ≤ b.start

instance : DecidableRel (@startLE K _) := fun a b => by
  unfold startLE; infer_instance

/-- `buildBuffLanes` from the source: greedy first-fit interval partitioning
over the instances sorted (stably) by start. -/
def buildBuffLanes (buffs : List (BuffInstance K)) : LaneResult :=
  let sorted := buffs.insertionSort startLE
  let st := sorted.foldl laneStep ([], [])
  ⟨st.2, max 1 st.1.length⟩

structure StatTarget (K : Type) where
  id : String
  stats : Stats K
deriving DecidableEq, Repr

/-- The grouping key of the stat aggregator's `stacked` map. -/
def statKey (b : BuffInstance K) : String :=
  statName b.stat ++ ":" ++ b.stackGroup ++ ":" ++ kindName b.kind

/-- `Map.set`: replace the value in place when the key exists, else append. -/
def mapSet (m : List (String × BuffInstance K)) (k : String)
    (v : BuffInstance K) : List (String × BuffInstance K) :=
  if m.any (fun p => p.1 = k) then
    m.map (fun p => if p.1 = k then (k, v) else p)
  else m ++ [(k, v)]

def stackedStep (m : List (String × BuffInstance K)) (b : BuffInstance K) :
    List (String × BuffInstance K) :=
  match m.lookup (statKey b) with
  | none => mapSet m (statKey b) b
  | some current => if b.start > current.start then mapSet m (statKey b) b else m

def addStat (t : Stats K) (s : BuffStat) (v : K) : Stats K :=
  match s with
  | .atk => { t with atk := t.atk + v }
  | .crit => { t with crit := t.crit + v }
  | .critDmg => { t with critDmg := t.critDmg + v }

structure StatQueryResult (K : Type) where
  active : List (BuffInstance K)
  totals : Stats K
  computed : Stats K
deriving DecidableEq, Repr

/-- `computeStatsAtTime` from the source. -/
def computeStatsAtTime (target : StatTarget K) (time : K)
    (instances : List (BuffInstance K)) : StatQueryResult K :=
  let active := instances.filter
    (fun item => item.studentId = target.id ∧ item.start ≤ time ∧ time < item.stop)
  let stacked := active.foldl stackedStep []
  let totals := (stacked.map (fun p => p.2)).foldl
    (fun t b =>
      match b.kind with
      | .attack => t
      | .debuff => addStat t b.stat (-b.value)
      | .buff => addStat t b.stat b.value)
    ⟨0, 0, 0⟩
  let computed : Stats K :=
    ⟨target.stats.atk * (1 + totals.atk),
     target.stats.crit * (1 + totals.crit),
     target.stats.critDmg * (1 + totals.critDmg)⟩
  ⟨active, totals, computed⟩

end TlPuzzle

namespace TlPuzzle

variable {K : Type} [LinearOrderedCommRing K]

/-! ### Frame property of the overwrite sweep -/

/-- `x` is `y` with its end possibly lowered and every other field unchanged. -/
def EndReduced (x y : BuffInstance K) : Prop :=
  x.stop ≤ y.stop ∧ { x with stop := y.stop } = y

theorem EndReduced.refl (x : BuffInstance K) : EndReduced x x :=
  ⟨le_refl _, rfl⟩

theorem EndReduced.trans {x y z : BuffInstance K} (h1 : EndReduced x y)
    (h2 : EndReduced y z) : EndReduced x z := by
  obtain ⟨le1, e1⟩ := h1
  obtain ⟨le2, e2⟩ := h2
  refine ⟨le_trans le1 le2, ?_⟩
  rw [← e2, ← e1]

theorem mem_sweepStep {acc : List (BuffInstance K)} {b : BuffInstance K} :
    ∀ x ∈ sweepStep acc b, x = b ∨ ∃ y ∈ acc, EndReduced x y := by
  intro x hx
  cases acc with
  | nil =>
    simp only [sweepStep, List.mem_singleton] at hx
    exact Or.inl hx
  | cons last rest =>
    simp only [sweepStep] at hx
    by_cases hlt : b.start < last.stop
    · simp only [if_pos hlt] at hx
      by_cases hcol :
          ({ last with stop := min last.stop b.start } : BuffInstance K).stop ≤
            ({ last with stop := min last.stop b.start } : BuffInstance K).start
      · rw [if_pos hcol] at hx
        rcases List.mem_cons.mp hx with h | h
        · exact Or.inl h
        · exact Or.inr ⟨x, List.mem_cons_of_mem _ h, EndReduced.refl x⟩
      · rw [if_neg hcol] at hx
        rcases List.mem_cons.mp hx with h | h
        · exact Or.inl h
        · rcases List.mem_cons.mp h with h' | h'
          · subst h'
            exact Or.inr ⟨last, List.mem_cons_self _ _,
              ⟨min_le_left _ _, by rfl⟩⟩
          · exact Or.inr ⟨x, List.mem_cons_of_mem _ h', EndReduced.refl x⟩
    · simp only [if_neg hlt] at hx
      rcases List.mem_cons.mp hx with h | h
      · exact Or.inl h
      · exact Or.inr ⟨x, h, EndReduced.refl x⟩

theorem foldl_sweepStep_frame (l : List (BuffInstance K)) :
    ∀ acc, ∀ x ∈ l.foldl sweepStep acc,
      (∃ y ∈ acc, EndReduced x y) ∨ ∃ y ∈ l, EndReduced x y := by
  induction l with
  | nil =>
    intro acc x hx
    exact Or.inl ⟨x, hx, EndReduced.refl x⟩
  | cons b rest ih =>
    intro acc x hx
    simp only [List.foldl_cons] at hx
    rcases ih (sweepStep acc b) x hx with h | h
    · obtain ⟨y, hy, hr⟩ := h
      rcases mem_sweepStep y hy with h' | h'
      · subst h'
        exact Or.inr ⟨y, List.mem_cons_self _ _, hr⟩
      · obtain ⟨z, hz, hr'⟩ := h'
        exact Or.inl ⟨z, hz, hr.trans hr'⟩
    · obtain ⟨y, hy, hr⟩ := h
      exact Or.inr ⟨y, List.mem_cons_of_mem _ hy, hr⟩

theorem mem_sweep {l : List (BuffInstance K)} :
    ∀ x ∈ sweep l, ∃ y ∈ l, EndReduced x y := by
  intro x hx
  rw [sweep, List.mem_reverse] at hx
  rcases foldl_sweepStep_frame l [] x hx with h | h
  · simp at h
  · exact h

theorem mem_processGroup {m : List (BuffInstance K)} :
    ∀ x ∈ processGroup m, ∃ y ∈ m, EndReduced x y := by
  intro x hx
  rw [processGroup, List.mem_filter] at hx
  obtain ⟨y, hy, hr⟩ := mem_sweep x hx.1
  exact ⟨y, (List.mem_insertionSort _).mp hy, hr⟩

theorem mem_applyOverwriteRules {l : List (BuffInstance K)} :
    ∀ x ∈ applyOverwriteRules l, ∃ y ∈ l, EndReduced x y := by
  intro x hx
  rw [applyOverwriteRules, List.mem_flatMap] at hx
  obtain ⟨k, _, hmem⟩ := hx
  obtain ⟨y, hy, hr⟩ := mem_processGroup x hmem
  exact ⟨y, (List.mem_filter.mp hy).1, hr⟩

/-- The conjunction of field preservations claimed for the overwrite engine:
all fields of `x` agree with `y` except that the end may be lower. -/
def FrameMatch (x y : BuffInstance K) : Prop :=
  x.id = y.id ∧ x.studentId = y.studentId ∧ x.sourceStudentId = y.sourceStudentId ∧
  x.kind = y.kind ∧ x.stat = y.stat ∧ x.value = y.value ∧
  x.stackGroup = y.stackGroup ∧ x.start = y.start ∧
  x.stop ≤ y.stop ∧ { x with stop := y.stop } = y

theorem EndReduced.frameMatch {x y : BuffInstance K} (h : EndReduced x y) :
    FrameMatch x y := by
  obtain ⟨hle, he⟩ := h
  refine ⟨?_, ?_, ?_, ?_, ?_, ?_, ?_, ?_, hle, he⟩ <;> rw [← he]

end TlPuzzle

namespace TlPuzzle

variable {K : Type} [LinearOrderedCommRing K]

/-! ### Order facts about the overwrite sort comparator -/

theorem instLE_trans : ∀ (a b c : BuffInstance K),
    instLE a b → instLE b c → instLE a c := by
  intro a b c hab hbc
  rcases hab with h | ⟨h1, h2⟩ <;> rcases hbc with h' | ⟨h1', h2'⟩
  · exact Or.inl (lt_trans h h')
  · exact Or.inl (h1' ▸ h)
  · exact Or.inl (h1 ▸ h')
  · exact Or.inr ⟨h1.trans h1', le_trans h2 h2'⟩

theorem instLE_total : ∀ (a b : BuffInstance K), instLE a b ∨ instLE b a := by
  intro a b
  rcases lt_trichotomy a.start b.start with h | h | h
  · exact Or.inl (Or.inl h)
  · rcases le_total a.id b.id with h' | h'
    · exact Or.inl (Or.inr ⟨h, h'⟩)
    · exact Or.inr (Or.inr ⟨h.symm, h'⟩)
  · exact Or.inr (Or.inl h)

instance : IsTrans (BuffInstance K) instLE :=
  ⟨instLE_trans⟩

instance : IsTotal (BuffInstance K) instLE :=
  ⟨instLE_total⟩

theorem instLE_start_le {a b : BuffInstance K} (h : instLE a b) :
    a.start ≤ b.start := by
  rcases h with h | ⟨h, _⟩
  · exact le_of_lt h
  · exact le_of_eq h

theorem instLE_antisymm_fields {a b : BuffInstance K} (hab : instLE a b)
    (hba : instLE b a) : a.start = b.start ∧ a.id = b.id := by
  rcases hab with h | ⟨h1, h2⟩ <;> rcases hba with h' | ⟨h1', h2'⟩
  · exact absurd h' (lt_asymm h)
  · exact absurd h (h1' ▸ lt_irrefl _)
  · exact absurd h' (h1 ▸ lt_irrefl _)
  · exact ⟨h1, le_antisymm h2 h2'⟩

theorem insertionSort_start_sorted (m : List (BuffInstance K)) :
    (m.insertionSort instLE).Pairwise (fun a b => a.start ≤ b.start) :=
  (List.sorted_insertionSort instLE m).imp instLE_start_le

/-! ### The sweep produces a non-overlapping chain -/

/-- The accumulator (the `trimmed` array, reversed) is a reverse chain:
each earlier-pushed instance ends before every later-pushed one starts. -/
def RevChain (acc : List (BuffInstance K)) : Prop :=
  acc.Pairwise (fun a b => b.stop ≤ a.start)

theorem foldl_sweepStep_revChain :
    ∀ (l acc : List (BuffInstance K)), RevChain acc →
      l.Pairwise (fun a b => a.start ≤ b.start) →
      (∀ a ∈ acc, ∀ b ∈ l, a.start ≤ b.start) →
      RevChain (l.foldl sweepStep acc) := by
  intro l
  induction l with
  | nil => intro acc hacc _ _; exact hacc
  | cons b rest ih =>
    intro acc hacc hsort hcross
    obtain ⟨hb_le, hsort'⟩ := List.pairwise_cons.mp hsort
    have hcross_b : ∀ a ∈ acc, a.start ≤ b.start := fun a ha =>
      hcross a ha b (List.mem_cons_self _ _)
    have hstep_chain : RevChain (sweepStep acc b) := by
      cases acc with
      | nil => simp [sweepStep, RevChain]
      | cons last rest_acc =>
        obtain ⟨hlr, hrest⟩ := List.pairwise_cons.mp hacc
        have hlast_b : last.start ≤ b.start :=
          hcross_b last (List.mem_cons_self _ _)
        have hr_b : ∀ r ∈ rest_acc, r.stop ≤ b.start := fun r hr =>
          le_trans (hlr r hr) hlast_b
        simp only [sweepStep]
        by_cases hlt : b.start < last.stop
        · rw [if_pos hlt]
          by_cases hcol :
              ({ last with stop := min last.stop b.start } : BuffInstance K).stop ≤
                ({ last with stop := min last.stop b.start } : BuffInstance K).start
          · rw [if_pos hcol]
            exact List.pairwise_cons.mpr ⟨hr_b, hrest⟩
          · rw [if_neg hcol]
            refine List.pairwise_cons.mpr ⟨?_, List.pairwise_cons.mpr ⟨hlr, hrest⟩⟩
            intro r hr
            rcases List.mem_cons.mp hr with h | h
            · subst h; exact min_le_right _ _
            · exact hr_b r h
        · rw [if_neg hlt]
          refine List.pairwise_cons.mpr ⟨?_, List.pairwise_cons.mpr ⟨hlr, hrest⟩⟩
          intro r hr
          rcases List.mem_cons.mp hr with h | h
          · subst h; exact le_of_not_lt hlt
          · exact hr_b r h
    have hstep_cross : ∀ a ∈ sweepStep acc b, ∀ c ∈ rest, a.start ≤ c.start := by
      intro a ha c hc
      rcases mem_sweepStep a ha with h | h
      · subst h; exact hb_le c hc
      · obtain ⟨y, hy, hr⟩ := h
        have hst : a.start = y.start := hr.frameMatch.2.2.2.2.2.2.2.1
        rw [hst]
        exact hcross y hy c (List.mem_cons_of_mem _ hc)
    simpa using ih (sweepStep acc b) hstep_chain hsort' hstep_cross

theorem sweep_chain {l : List (BuffInstance K)}
    (hsort : l.Pairwise (fun a b => a.start ≤ b.start)) :
    (sweep l).Pairwise (fun a b => a.stop ≤ b.start) := by
  rw [sweep, List.pairwise_reverse]
  exact foldl_sweepStep_revChain l [] (List.Pairwise.nil) hsort (by simp)

theorem processGroup_chain (m : List (BuffInstance K)) :
    (processGroup m).Pairwise (fun a b => a.stop ≤ b.start) :=
  (sweep_chain (insertionSort_start_sorted m)).filter _

theorem processGroup_pos (m : List (BuffInstance K)) :
    ∀ x ∈ processGroup m, x.start < x.stop := by
  intro x hx
  rw [processGroup, List.mem_filter] at hx
  simpa using hx.2

end TlPuzzle

namespace TlPuzzle

variable {K : Type} [LinearOrderedCommRing K]

/-! ### Grouping by slot key -/

theorem mem_nubAux :
    ∀ (l seen : List String) (x : String),
      x ∈ nubAux l seen ↔ x ∈ l ∧ x ∉ seen := by
  intro l
  induction l with
  | nil => simp [nubAux]
  | cons k ks ih =>
    intro seen x
    rw [nubAux]
    by_cases hk : k ∈ seen
    · rw [if_pos hk, ih]
      constructor
      · rintro ⟨h1, h2⟩
        exact ⟨List.mem_cons_of_mem _ h1, h2⟩
      · rintro ⟨h1, h2⟩
        rcases List.mem_cons.mp h1 with h | h
        · exact absurd (h ▸ hk) h2
        · exact ⟨h, h2⟩
    · rw [if_neg hk]
      constructor
      · intro h
        rcases List.mem_cons.mp h with h | h
        · subst h; exact ⟨List.mem_cons_self _ _, hk⟩
        · obtain ⟨h1, h2⟩ := (ih _ x).mp h
          exact ⟨List.mem_cons_of_mem _ h1,
            fun hs => h2 (List.mem_cons_of_mem _ hs)⟩
      · rintro ⟨h1, h2⟩
        rcases List.mem_cons.mp h1 with h | h
        · subst h; exact List.mem_cons_self _ _
        · by_cases hxk : x = k
          · subst hxk; exact List.mem_cons_self _ _
          · refine List.mem_cons_of_mem _ ((ih _ x).mpr ⟨h, ?_⟩)
            intro hs
            rcases List.mem_cons.mp hs with h' | h'
            · exact hxk h'
            · exact h2 h'

theorem nubAux_nodup : ∀ (l seen : List String), (nubAux l seen).Nodup := by
  intro l
  induction l with
  | nil => simp [nubAux]
  | cons k ks ih =>
    intro seen
    rw [nubAux]
    by_cases hk : k ∈ seen
    · rw [if_pos hk]; exact ih seen
    · rw [if_neg hk]
      refine List.nodup_cons.mpr ⟨?_, ih _⟩
      intro hmem
      exact ((mem_nubAux _ _ _).mp hmem).2 (List.mem_cons_self _ _)

theorem mem_nubKeys (l : List String) (x : String) : x ∈ nubKeys l ↔ x ∈ l := by
  rw [nubKeys, mem_nubAux]
  simp

theorem nubKeys_nodup (l : List String) : (nubKeys l).Nodup :=
  nubAux_nodup l []

/-- `SameSlot` is the modifier-slot key as a tuple of fields. -/
def SameSlot (sid : String) (st : BuffStat) (sg : String) (kd : EffectKind)
    (b : BuffInstance K) : Prop :=
  b.studentId = sid ∧ b.stat = st ∧ b.stackGroup = sg ∧ b.kind = kd

instance (sid : String) (st : BuffStat) (sg : String) (kd : EffectKind)
    (b : BuffInstance K) : Decidable (SameSlot sid st sg kd b) := by
  unfold SameSlot; infer_instance

/-- The string the slot tuple maps to. -/
def mkSlotKey (sid : String) (st : BuffStat) (sg : String) (kd : EffectKind) :
    String :=
  sid ++ ":" ++ statName st ++ ":" ++ sg ++ ":" ++ kindName kd

theorem slotKey_of_sameSlot {sid st sg kd} {b : BuffInstance K}
    (h : SameSlot sid st sg kd b) : slotKey b = mkSlotKey sid st sg kd := by
  obtain ⟨h1, h2, h3, h4⟩ := h
  rw [slotKey, mkSlotKey, h1, h2, h3, h4]

theorem slotKey_of_endReduced {x y : BuffInstance K} (h : EndReduced x y) :
    slotKey x = slotKey y := by
  have hf := h.frameMatch
  rw [slotKey, slotKey, hf.2.1, hf.2.2.2.1, hf.2.2.2.2.1, hf.2.2.2.2.2.2.1]

theorem mem_processGroup_key {m : List (BuffInstance K)} {k : String}
    (h : ∀ x ∈ m, slotKey x = k) : ∀ y ∈ processGroup m, slotKey y = k := by
  intro y hy
  obtain ⟨x, hx, hr⟩ := mem_processGroup y hy
  rw [slotKey_of_endReduced hr]
  exact h x hx

/-- A `flatMap` over distinct keys where at most the block of `k₀` is nonempty
collapses to that block. -/
theorem flatMap_eq_single_block {α β : Type} [DecidableEq α] (g : α → List β) :
    ∀ (keys : List α) (k₀ : α), keys.Nodup →
      (∀ k ∈ keys, k ≠ k₀ → g k = []) →
      keys.flatMap g = if k₀ ∈ keys then g k₀ else [] := by
  intro keys
  induction keys with
  | nil => simp
  | cons k ks ih =>
    intro k₀ hnd hz
    obtain ⟨hk_nin, hks_nd⟩ := List.nodup_cons.mp hnd
    rw [List.flatMap_cons]
    by_cases hk : k = k₀
    · subst hk
      have hnil : ks.flatMap g = [] := by
        rw [List.flatMap_eq_nil_iff]
        intro x hx
        exact hz x (List.mem_cons_of_mem _ hx) (fun he => hk_nin (he ▸ hx))
      simp [hnil]
    · rw [hz k (List.mem_cons_self _ _) hk,
        ih k₀ hks_nd (fun x hx hne => hz x (List.mem_cons_of_mem _ hx) hne)]
      simp [List.mem_cons, hk, Ne.symm hk]

/-- For any slot tuple, the instances of `applyOverwriteRules l` in that slot
form a start-ordered, pairwise non-overlapping chain. -/
theorem overwrite_slot_chain (l : List (BuffInstance K)) (sid : String)
    (st : BuffStat) (sg : String) (kd : EffectKind) :
    ((applyOverwriteRules l).filter
        (fun b => decide (SameSlot sid st sg kd b))).Pairwise
      (fun a b => a.stop ≤ b.start) := by
  set k₀ := mkSlotKey sid st sg kd with hk₀
  set p : BuffInstance K → Bool := fun b => decide (SameSlot sid st sg kd b)
    with hp
  rw [applyOverwriteRules, List.filter_flatMap]
  have hz : ∀ k ∈ nubKeys (l.map slotKey), k ≠ k₀ →
      (processGroup (l.filter (fun b => slotKey b = k))).filter p = [] := by
    intro k _ hk
    rw [List.eq_nil_iff_forall_not_mem]
    intro y hy
    rw [List.mem_filter] at hy
    have hyk : slotKey y = k := by
      refine mem_processGroup_key (fun x hx => ?_) y hy.1
      exact of_decide_eq_true (List.mem_filter.mp hx).2
    have hss : SameSlot sid st sg kd y := of_decide_eq_true hy.2
    exact hk (hyk ▸ slotKey_of_sameSlot hss)
  rw [flatMap_eq_single_block _ _ k₀ (nubKeys_nodup _) hz]
  split
  · exact (processGroup_chain _).filter _
  · exact List.Pairwise.nil

end TlPuzzle

namespace TlPuzzle

variable {K : Type} [LinearOrderedCommRing K]

/-! ### Permutation invariance of the overwrite engine -/

/-- Raw instance lists key their elements by the synthetic id: no two distinct
instances share both start time and id (the id is a deterministic function of
event, effect and target, and the start comes with the event). -/
def KeyUniq (l : List (BuffInstance K)) : Prop :=
  ∀ a ∈ l, ∀ b ∈ l, a.start = b.start → a.id = b.id → a = b

instance (l : List (BuffInstance K)) : Decidable (KeyUniq l) := by
  unfold KeyUniq; infer_instance

/-- Two sorted lists that are permutations of each other coincide when the
comparator has no ties between distinct elements. -/
theorem eq_of_perm_of_sorted_instLE :
    ∀ {l₁ l₂ : List (BuffInstance K)}, List.Perm l₁ l₂ →
      l₁.Pairwise instLE → l₂.Pairwise instLE →
      (∀ a ∈ l₁, ∀ b ∈ l₁, instLE a b → instLE b a → a = b) →
      l₁ = l₂ := by
  intro l₁
  induction l₁ with
  | nil =>
    intro l₂ hp _ _ _
    exact (hp.nil_eq).symm ▸ rfl
  | cons a t₁ ih =>
    intro l₂ hp hs₁ hs₂ ha
    cases l₂ with
    | nil => exact absurd hp.symm.nil_eq (by simp)
    | cons b t₂ =>
      have hab : a = b := by
        have hbmem : b ∈ a :: t₁ := hp.mem_iff.mpr (List.mem_cons_self _ _)
        have hamem : a ∈ b :: t₂ := hp.mem_iff.mp (List.mem_cons_self _ _)
        rcases List.mem_cons.mp hbmem with h | h
        · exact h.symm
        · rcases List.mem_cons.mp hamem with h' | h'
          · exact h'
          · have h1 : instLE a b := (List.pairwise_cons.mp hs₁).1 b h
            have h2 : instLE b a := (List.pairwise_cons.mp hs₂).1 a h'
            exact ha a (List.mem_cons_self _ _) b hbmem h1 h2
      subst hab
      have hpt : List.Perm t₁ t₂ := hp.cons_inv
      have ht := ih hpt (List.pairwise_cons.mp hs₁).2 (List.pairwise_cons.mp hs₂).2
        (fun x hx y hy => ha x (List.mem_cons_of_mem _ hx) y
          (List.mem_cons_of_mem _ hy))
      rw [ht]

theorem keyUniq_antisymm {l : List (BuffInstance K)} (h : KeyUniq l) :
    ∀ a ∈ l, ∀ b ∈ l, instLE a b → instLE b a → a = b := by
  intro a hal b hbl hab hba
  obtain ⟨hst, hid⟩ := instLE_antisymm_fields hab hba
  exact h a hal b hbl hst hid

theorem insertionSort_perm_eq {m₁ m₂ : List (BuffInstance K)}
    (hp : List.Perm m₁ m₂)
    (ha : ∀ a ∈ m₁, ∀ b ∈ m₁, instLE a b → instLE b a → a = b) :
    m₁.insertionSort instLE = m₂.insertionSort instLE := by
  refine eq_of_perm_of_sorted_instLE
    ((List.perm_insertionSort instLE m₁).trans
      (hp.trans (List.perm_insertionSort instLE m₂).symm))
    (List.sorted_insertionSort instLE m₁)
    (List.sorted_insertionSort instLE m₂) ?_
  intro x hx y hy
  exact ha x ((List.mem_insertionSort _).mp hx) y
    ((List.mem_insertionSort _).mp hy)

theorem processGroup_perm_eq {m₁ m₂ : List (BuffInstance K)}
    (hp : List.Perm m₁ m₂)
    (ha : ∀ a ∈ m₁, ∀ b ∈ m₁, instLE a b → instLE b a → a = b) :
    processGroup m₁ = processGroup m₂ := by
  rw [processGroup, processGroup, insertionSort_perm_eq hp ha]

theorem applyOverwriteRules_perm {l₁ l₂ : List (BuffInstance K)}
    (hperm : List.Perm l₁ l₂) (huniq : KeyUniq l₁) :
    List.Perm (applyOverwriteRules l₁) (applyOverwriteRules l₂) := by
  have hkeys : List.Perm (nubKeys (l₁.map slotKey)) (nubKeys (l₂.map slotKey)) := by
    refine (List.perm_ext_iff_of_nodup (nubKeys_nodup _) (nubKeys_nodup _)).mpr ?_
    intro k
    rw [mem_nubKeys, mem_nubKeys]
    exact (hperm.map slotKey).mem_iff
  have hfun : ∀ k,
      processGroup (l₁.filter (fun b => slotKey b = k)) =
      processGroup (l₂.filter (fun b => slotKey b = k)) := by
    intro k
    refine processGroup_perm_eq (hperm.filter _) ?_
    intro a hal b hbl hab hba
    exact keyUniq_antisymm huniq a (List.mem_of_mem_filter hal) b
      (List.mem_of_mem_filter hbl) hab hba
  rw [applyOverwriteRules, applyOverwriteRules]
  have h1 : (nubKeys (l₁.map slotKey)).flatMap
      (fun k => processGroup (l₁.filter (fun b => slotKey b = k))) =
      (nubKeys (l₁.map slotKey)).flatMap
      (fun k => processGroup (l₂.filter (fun b => slotKey b = k))) :=
    List.flatMap_congr (fun k _ => hfun k)
  rw [h1]
  exact hkeys.flatMap_right _

/-- C1: for every input list of raw Effect Instances and every Modifier Slot
key, the resolved instances in that slot are pairwise non-overlapping and
time-ordered after `applyOverwriteRules`, and the resolved output is
permutation-invariant (as a multiset) for inputs whose instances are keyed by
(start, id) — the start-then-id tie-break. -/
theorem overwrite_nonoverlap_and_perm_invariant
    (l₁ l₂ : List (BuffInstance K)) (sid : String) (st : BuffStat) (sg : String)
    (kd : EffectKind) (hperm : List.Perm l₁ l₂) (huniq : KeyUniq l₁) :
    ((applyOverwriteRules l₁).filter
        (fun b => decide (SameSlot sid st sg kd b))).Pairwise
      (fun a b => a.stop ≤ b.start) ∧
    List.Perm (applyOverwriteRules l₁) (applyOverwriteRules l₂) :=
  ⟨overwrite_slot_chain l₁ sid st sg kd, applyOverwriteRules_perm hperm huniq⟩

end TlPuzzle

namespace TlPuzzle

/-! ### Sample data shared by concrete witnesses -/

def sampleInst1 : BuffInstance ℤ :=
  ⟨"e1:b1:s.a", "s.a", "s.a", "e1", .buff, .atk, 3, 0, 5, "field", .ex,
    "ex1", some "e1", "b1"⟩

def sampleInst2 : BuffInstance ℤ :=
  ⟨"e2:b1:s.a", "s.a", "s.a", "e1", .buff, .atk, 3, 3, 8, "field", .ex,
    "ex1", some "e2", "b1"⟩

/-- C10: every instance in the output of the Overwrite Resolution Engine is an
input instance with identical id, target, source, kind, stat, magnitude,
stack group and start, and an end that may only have been reduced; nothing
else appears in the output. -/
theorem overwrite_frame_property {K : Type} [LinearOrderedCommRing K]
    (l : List (BuffInstance K)) :
    ∀ x ∈ applyOverwriteRules l, ∃ y ∈ l, FrameMatch x y := by
  intro x hx
  obtain ⟨y, hy, hr⟩ := mem_applyOverwriteRules x hx
  exact ⟨y, hy, hr.frameMatch⟩

theorem overwrite_frame_property_witness :
    ∃ y ∈ [sampleInst1, sampleInst2],
      FrameMatch { sampleInst1 with stop := 3 } y :=
  overwrite_frame_property [sampleInst1, sampleInst2]
    { sampleInst1 with stop := 3 } (by decide)

theorem overwrite_nonoverlap_and_perm_invariant_witness :
    ((applyOverwriteRules [sampleInst2, sampleInst1]).filter
        (fun b => decide (SameSlot "s.a" .atk "field" .buff b))).Pairwise
      (fun a b => a.stop ≤ b.start) ∧
    List.Perm (applyOverwriteRules [sampleInst2, sampleInst1])
      (applyOverwriteRules [sampleInst1, sampleInst2]) :=
  overwrite_nonoverlap_and_perm_invariant [sampleInst2, sampleInst1]
    [sampleInst1, sampleInst2] "s.a" .atk "field" .buff (by decide) (by decide)

end TlPuzzle

namespace TlPuzzle

variable {K : Type} [LinearOrderedCommRing K]

/-! ### Idempotence of the overwrite engine -/

theorem foldl_sweepStep_of_chain :
    ∀ (l acc : List (BuffInstance K)),
      (∀ a, acc.head? = some a → ∀ b ∈ l, a.stop ≤ b.start) →
      l.Pairwise (fun a b => a.stop ≤ b.start) →
      l.foldl sweepStep acc = l.reverse ++ acc := by
  intro l
  induction l with
  | nil => intro acc _ _; simp
  | cons b rest ih =>
    intro acc hhead hchain
    obtain ⟨hb, hchain'⟩ := List.pairwise_cons.mp hchain
    have hstep : sweepStep acc b = b :: acc := by
      cases acc with
      | nil => rfl
      | cons last rest_acc =>
        have hle : last.stop ≤ b.start :=
          hhead last rfl b (List.mem_cons_self _ _)
        simp [sweepStep, not_lt_of_le hle]
    rw [List.foldl_cons, hstep, ih (b :: acc) ?_ hchain']
    · simp
    · intro a ha c hc
      rw [List.head?_cons, Option.some_inj] at ha
      subst ha
      exact hb c hc

theorem sweep_of_chain {l : List (BuffInstance K)}
    (hchain : l.Pairwise (fun a b => a.stop ≤ b.start)) : sweep l = l := by
  rw [sweep, foldl_sweepStep_of_chain l [] (by simp) hchain]
  simp

theorem processGroup_fixed {m : List (BuffInstance K)}
    (hchain : m.Pairwise (fun a b => a.stop ≤ b.start))
    (hpos : ∀ x ∈ m, x.start < x.stop) : processGroup m = m := by
  have hsorted : m.Pairwise instLE := by
    refine hchain.imp_of_mem ?_
    intro a b ha _ hab
    exact Or.inl (lt_of_lt_of_le (hpos a ha) hab)
  rw [processGroup, List.Sorted.insertionSort_eq hsorted, sweep_of_chain hchain]
  refine List.filter_eq_self.mpr ?_
  intro b hb
  simpa using hpos b hb

theorem applyOverwriteRules_pos (l : List (BuffInstance K)) :
    ∀ x ∈ applyOverwriteRules l, x.start < x.stop := by
  intro x hx
  rw [applyOverwriteRules, List.mem_flatMap] at hx
  obtain ⟨k, _, hmem⟩ := hx
  exact processGroup_pos _ x hmem

theorem applyOverwriteRules_filter_key (l : List (BuffInstance K)) (k : String) :
    (applyOverwriteRules l).filter (fun b => slotKey b = k) =
      if k ∈ nubKeys (l.map slotKey)
      then processGroup (l.filter (fun b => slotKey b = k)) else [] := by
  rw [applyOverwriteRules, List.filter_flatMap]
  have hz : ∀ k' ∈ nubKeys (l.map slotKey), k' ≠ k →
      (processGroup (l.filter (fun b => slotKey b = k'))).filter
        (fun b => slotKey b = k) = [] := by
    intro k' _ hk'
    rw [List.eq_nil_iff_forall_not_mem]
    intro y hy
    rw [List.mem_filter] at hy
    have hyk : slotKey y = k' := by
      refine mem_processGroup_key (fun x hx => ?_) y hy.1
      exact of_decide_eq_true (List.mem_filter.mp hx).2
    exact hk' (hyk ▸ of_decide_eq_true hy.2)
  rw [flatMap_eq_single_block _ _ k (nubKeys_nodup _) hz]
  split
  · refine List.filter_eq_self.mpr ?_
    intro b hb
    simpa using mem_processGroup_key
      (fun x hx => of_decide_eq_true (List.mem_filter.mp hx).2) b hb
  · rfl

/-- Concatenating the fibers of a partition of `out` by `f` over the distinct
key list recovers `out` up to permutation. -/
theorem flatMap_filter_perm {β : Type} (f : β → String) :
    ∀ (ks : List String) (out : List β), (∀ x ∈ out, f x ∈ ks) → ks.Nodup →
      List.Perm (ks.flatMap (fun k => out.filter (fun x => f x = k))) out := by
  intro ks
  induction ks with
  | nil =>
    intro out hf _
    have hout : out = [] := by
      cases out with
      | nil => rfl
      | cons a t => exact absurd (hf a (List.mem_cons_self _ _)) (by simp)
    subst hout
    simp
  | cons k ks ih =>
    intro out hf hnd
    obtain ⟨hk_nin, hnd'⟩ := List.nodup_cons.mp hnd
    rw [List.flatMap_cons]
    have htail : ks.flatMap (fun k' => out.filter (fun x => f x = k')) =
        ks.flatMap (fun k' =>
          (out.filter (fun x => ¬ f x = k)).filter (fun x => f x = k')) := by
      refine List.flatMap_congr ?_
      intro k' hk'
      rw [List.filter_filter]
      refine List.filter_congr ?_
      intro x _
      by_cases hx : f x = k'
      · have hne : ¬ f x = k := fun he => hk_nin ((he ▸ hx ▸ hk') : k ∈ ks)
        have hne' : ¬ k' = k := fun he => hk_nin (he ▸ hk')
        simp [hx, hne, hne']
      · simp [hx]
    rw [htail]
    have h2 := ih (out.filter (fun x => ¬ f x = k)) ?_ hnd'
    · refine (h2.append_left _).trans ?_
      have := List.filter_append_perm (fun x => decide (f x = k)) out
      refine List.Perm.trans ?_ this
      refine List.Perm.append_left _ (List.Perm.of_eq (List.filter_congr ?_))
      intro x _
      simp
    · intro x hx
      rw [List.mem_filter] at hx
      rcases List.mem_cons.mp (hf x hx.1) with h | h
      · exact absurd h (by simpa using hx.2)
      · exact h

/-- C4: the Overwrite Resolution Engine is idempotent — its output is a fixed
point (up to permutation, hence as a set of instances). -/
theorem applyOverwriteRules_idempotent (l : List (BuffInstance K)) :
    List.Perm (applyOverwriteRules (applyOverwriteRules l))
      (applyOverwriteRules l) := by
  have hpt : ∀ k,
      processGroup ((applyOverwriteRules l).filter (fun b => slotKey b = k)) =
      (applyOverwriteRules l).filter (fun b => slotKey b = k) := by
    intro k
    rw [applyOverwriteRules_filter_key l k]
    split
    · exact processGroup_fixed (processGroup_chain _) (processGroup_pos _)
    · rfl
  have hunfold : applyOverwriteRules (applyOverwriteRules l) =
      (nubKeys ((applyOverwriteRules l).map slotKey)).flatMap
        (fun k => (applyOverwriteRules l).filter (fun b => slotKey b = k)) := by
    conv_lhs => rw [applyOverwriteRules]
    exact List.flatMap_congr (fun k _ => hpt k)
  rw [hunfold]
  refine flatMap_filter_perm slotKey _ _ ?_ (nubKeys_nodup _)
  intro x hx
  exact (mem_nubKeys _ _).mpr (List.mem_map_of_mem slotKey hx)

end TlPuzzle

namespace TlPuzzle

variable {K : Type} [LinearOrderedCommRing K]

/-! ### Clipping -/

theorem buildBuffInstances_stop_le
    (students : List (Student K)) (events : List (ExEvent K))
    (nsEnabled : List (String × Bool)) (nsTargets : List (String × TargetOverride))
    (timelineSeconds timeStep : K) :
    ∀ x ∈ buildBuffInstances students events nsEnabled nsTargets
        timelineSeconds timeStep,
      x.stop ≤ timelineSeconds := by
  intro x hx
  rw [buildBuffInstances, List.mem_flatMap] at hx
  obtain ⟨event, _, hx⟩ := hx
  rcases hfs : findStudent students event.studentId with _ | student
  · simp only [hfs] at hx
    simp at hx
  · simp only [hfs] at hx
    rcases hsk : findSkill student event.skillType event.skillId with _ | skill
    · simp only [hsk] at hx
      simp at hx
    · simp only [hsk] at hx
      simp only [List.mem_flatMap, List.mem_map] at hx
      obtain ⟨buff, _, tid, _, hxeq⟩ := hx
      subst hxeq
      exact min_le_right _ _

/-- C5 (amended): the expander clips ends to `min (start + duration)
timelineLength`, and may emit instances with `end ≤ start`; the Overwrite
Resolution Engine drops them, so every instance of the resolved pipeline has
`start < end` and `end ≤ timelineLength`. -/
theorem pipeline_clipping
    (students : List (Student K)) (events : List (ExEvent K))
    (nsEnabled : List (String × Bool)) (nsTargets : List (String × TargetOverride))
    (timelineSeconds timeStep : K) :
    ∀ x ∈ applyOverwriteRules (buildBuffInstances students events nsEnabled
        nsTargets timelineSeconds timeStep),
      x.start < x.stop ∧ x.stop ≤ timelineSeconds := by
  intro x hx
  refine ⟨applyOverwriteRules_pos _ x hx, ?_⟩
  obtain ⟨y, hy, hr⟩ := mem_applyOverwriteRules x hx
  exact le_trans hr.1
    (buildBuffInstances_stop_le students events nsEnabled nsTargets
      timelineSeconds timeStep y hy)

end TlPuzzle

namespace TlPuzzle

/-! ### Concrete expander inputs for counterexamples and witnesses -/

def sampleBuff : Buff ℤ :=
  ⟨"b1", "eff1", some .buff, .atk, 3, some 6, "field", none, none⟩

def sampleBuffNeg : Buff ℤ :=
  ⟨"b2", "eff2", some .buff, .atk, 3, some (-3), "field", none, none⟩

def sampleSkill : ExSkill ℤ :=
  ⟨"ex1", "EX", [sampleBuff]⟩

def sampleSkillNeg : ExSkill ℤ :=
  ⟨"ex2", "EX2", [sampleBuffNeg]⟩

def sampleStudentA : Student ℤ :=
  ⟨"s.a", "A", ⟨1000, 200, 200⟩, ⟨1, 1⟩, none, [sampleSkill, sampleSkillNeg]⟩

def sampleStudentB : Student ℤ :=
  ⟨"s.b", "B", ⟨800, 150, 175⟩, ⟨1, 1⟩, none, []⟩

def sampleEvent1 : ExEvent ℤ :=
  ⟨"e1", "s.a", .ex, "ex1", 0, some 5, .self, none, none⟩

/-- An event placed at the end of the timeline: its clipped interval is empty. -/
def sampleEventLate : ExEvent ℤ :=
  ⟨"e9", "s.a", .ex, "ex1", 60, some 1, .self, none, none⟩

/-- An event with no duration of its own, whose skill's effect definition has a
negative nominal duration. -/
def sampleEventNoDur : ExEvent ℤ :=
  ⟨"e3", "s.a", .ex, "ex2", 10, none, .self, none, none⟩

/-- C5 counterexample: the Instance Expander does emit an instance whose
clipped end ≤ start (the final filter lives in the overwrite engine instead). -/
theorem expander_emits_empty_instance :
    ∃ x ∈ buildBuffInstances [sampleStudentA] [sampleEventLate] [] [] 60 1,
      x.stop ≤ x.start := by decide

/-- The instance the pipeline produces for `sampleEvent1`. -/
def samplePipeOut : BuffInstance ℤ :=
  ⟨"e1:b1:s.a", "s.a", "s.a", "eff1", .buff, .atk, 3, 0, 5, "field", .ex,
    "ex1", some "e1", "b1"⟩

theorem pipeline_clipping_witness :
    samplePipeOut.start < samplePipeOut.stop ∧ samplePipeOut.stop ≤ 60 :=
  pipeline_clipping [sampleStudentA] [sampleEvent1] [] [] 60 1
    samplePipeOut (by decide)

/-- C9 counterexample: for a `buff`-kind effect definition with negative
duration (and an event without its own duration), the expander uses the
negative duration unclamped and emits a negative-length interval. -/
theorem buff_duration_not_clamped :
    ∃ x ∈ buildBuffInstances [sampleStudentA] [sampleEventNoDur] [] [] 60 1,
      x.stop < x.start := by decide

/-- C9 (amended): only `attack`-kind durations are clamped to at least one
time-resolution tick; `buff`/`debuff` durations are used unclamped and may
produce empty or inverted raw intervals, which the overwrite engine drops, so
the resolved pipeline contains no non-positive-length instance. -/
theorem effect_duration_clamping {K : Type} [LinearOrderedCommRing K]
    (students : List (Student K)) (events : List (ExEvent K))
    (nsEnabled : List (String × Bool)) (nsTargets : List (String × TargetOverride))
    (timelineSeconds timeStep : K) :
    (∀ (event : ExEvent K) (buff : Buff K),
      timeStep ≤ instDuration timeStep event buff .attack) ∧
    (∀ x ∈ applyOverwriteRules (buildBuffInstances students events nsEnabled
        nsTargets timelineSeconds timeStep), x.start < x.stop) := by
  constructor
  · intro event buff
    exact le_max_left _ _
  · intro x hx
    exact applyOverwriteRules_pos _ x hx

theorem effect_duration_clamping_witness :
    (1 : ℤ) ≤ instDuration 1 sampleEventNoDur sampleBuffNeg .attack :=
  (effect_duration_clamping [sampleStudentA] [sampleEventNoDur] [] [] 60
    1).1 sampleEventNoDur sampleBuffNeg

end TlPuzzle

namespace TlPuzzle

variable {K : Type} [LinearOrderedCommRing K]

/-! ### Target resolution: the claimed chain vs the code -/

/-- The target-mode precedence as the spec words it: per-event per-effect
override, then effect-definition default, then cast-event mode. -/
def claimedMode (event : ExEvent K) (buff : Buff K) : TargetMode :=
  ((recordGet event.buffTargets buff.id).map (fun o => o.target)).getD
    (buff.target.getD event.target)

/-- The target list as the claim words it: for `student` mode, a single linear
fallback chain override-ids → effect-ids → event-ids → owner. -/
def claimedTargets (allStudentIds : List String) (event : ExEvent K)
    (buff : Buff K) : List String :=
  let mode := claimedMode event buff
  let raw : List String :=
    match mode with
    | .enemy => [ENEMY_ID]
    | .all => allStudentIds
    | .self => [event.studentId]
    | .student =>
      let oIds := (recordGet event.buffTargets buff.id).bind
        (fun o => o.targetStudentIds)
      if optNonempty oIds then oIds.getD []
      else if optNonempty buff.targetStudentIds then buff.targetStudentIds.getD []
      else if optNonempty event.targetStudentIds then event.targetStudentIds.getD []
      else [event.studentId]
  match mode with
  | .enemy => [ENEMY_ID]
  | _ =>
    let filtered := raw.filter
      (fun id => (allStudentIds ++ [ENEMY_ID]).contains id)
    if filtered.isEmpty then [event.studentId] else filtered

/-- The target list as the code actually behaves (the amended claim): when the
effect definition carries its own target mode, the `student` fallback is
effect-ids → owner and event-level ids are never consulted; otherwise it is
event-ids → owner. -/
def amendedTargets (allStudentIds : List String) (event : ExEvent K)
    (buff : Buff K) : List String :=
  let mode := claimedMode event buff
  let raw : List String :=
    match mode with
    | .enemy => [ENEMY_ID]
    | .all => allStudentIds
    | .self => [event.studentId]
    | .student =>
      let oIds := (recordGet event.buffTargets buff.id).bind
        (fun o => o.targetStudentIds)
      if optNonempty oIds then oIds.getD []
      else
        match buff.target with
        | some _ =>
          if optNonempty buff.targetStudentIds then buff.targetStudentIds.getD []
          else [event.studentId]
        | none =>
          if optNonempty event.targetStudentIds then event.targetStudentIds.getD []
          else [event.studentId]
  match mode with
  | .enemy => [ENEMY_ID]
  | _ =>
    let filtered := raw.filter
      (fun id => (allStudentIds ++ [ENEMY_ID]).contains id)
    if filtered.isEmpty then [event.studentId] else filtered

/-- A buff that declares `student` targeting but no explicit id list. -/
def cexBuffC3 : Buff ℤ :=
  ⟨"b3", "eff3", some .buff, .atk, 3, some 6, "field", some .student, none⟩

/-- An event whose own explicit target list names student `s.b`. -/
def cexEventC3 : ExEvent ℤ :=
  ⟨"e4", "s.a", .ex, "ex3", 0, some 5, .self, some ["s.b"], none⟩

/-- C3 counterexample: the code resolves to the owner, while the claimed
linear fallback chain resolves to the event-level list. -/
theorem target_resolver_chain_counterexample :
    finalTargets ["s.a", "s.b"] cexEventC3 cexBuffC3
        (resolveTargetMode cexEventC3 cexBuffC3) = ["s.a"] ∧
    claimedTargets ["s.a", "s.b"] cexEventC3 cexBuffC3 = ["s.b"] ∧
    finalTargets ["s.a", "s.b"] cexEventC3 cexBuffC3
        (resolveTargetMode cexEventC3 cexBuffC3) ≠
      claimedTargets ["s.a", "s.b"] cexEventC3 cexBuffC3 := by
  decide

/-- C3 (amended): the Target Resolver follows the claimed precedence for the
mode, resolves `self`/`all`/`enemy`/filtering/fallback as claimed, but in
`student` mode its fallback branches on whether the effect definition carries
its own target mode instead of walking one linear chain. -/
theorem target_resolver_amended (allStudentIds : List String)
    (event : ExEvent K) (buff : Buff K) :
    resolveTargetMode event buff = claimedMode event buff ∧
    finalTargets allStudentIds event buff (resolveTargetMode event buff) =
      amendedTargets allStudentIds event buff := by
  have hmode : resolveTargetMode event buff = claimedMode event buff := by
    rw [resolveTargetMode, claimedMode]
    cases recordGet event.buffTargets buff.id <;> rfl
  refine ⟨hmode, ?_⟩
  rw [hmode]
  cases h : claimedMode event buff <;>
    simp only [finalTargets, amendedTargets, rawTargets, h]

end TlPuzzle

namespace TlPuzzle

variable {K : Type} [LinearOrderedCommRing K]

/-! ### Deduplication of resolved targets -/

/-- An event whose explicit target list repeats an id. -/
def cexEventC8 : ExEvent ℤ :=
  ⟨"e5", "s.a", .ex, "ex1", 0, some 5, .student, some ["s.b", "s.b"], none⟩

/-- C8 counterexample: the resolver does not deduplicate — a repeated id in
the event's explicit target list yields two instances with the same id. -/
theorem target_resolver_emits_duplicates :
    ¬ ((buildBuffInstances [sampleStudentA, sampleStudentB] [cexEventC8] [] []
        60 1).map (fun b => b.id)).Nodup := by
  decide

theorem lookup_mem_snd :
    ∀ {l : List (String × TargetOverride)} {k : String} {v : TargetOverride},
      l.lookup k = some v → ∃ p ∈ l, p.2 = v := by
  intro l
  induction l with
  | nil => intro k v h; simp at h
  | cons p ps ih =>
    intro k v h
    rw [List.lookup_cons] at h
    cases hbeq : (k == p.1) with
    | true =>
      rw [hbeq] at h
      exact ⟨p, List.mem_cons_self _ _, by simpa using h⟩
    | false =>
      rw [hbeq] at h
      obtain ⟨q, hq, hqv⟩ := ih h
      exact ⟨q, List.mem_cons_of_mem _ hq, hqv⟩

theorem recordGet_mem {o : Option (List (String × TargetOverride))} {k : String}
    {v : TargetOverride} (h : recordGet o k = some v) :
    ∃ p ∈ o.getD [], p.2 = v :=
  lookup_mem_snd h

/-- Every explicit target-id list of the event is duplicate-free. -/
def EventListsNodup (e : ExEvent K) : Prop :=
  (e.targetStudentIds.getD []).Nodup ∧
  ∀ p ∈ e.buffTargets.getD [], (p.2.targetStudentIds.getD []).Nodup

instance (e : ExEvent K) : Decidable (EventListsNodup e) := by
  unfold EventListsNodup; infer_instance

def NSkillListsNodup : Option (NSkill K) → Prop
  | none => True
  | some ns => (ns.buffs.map (fun b => b.id)).Nodup ∧
      ∀ b ∈ ns.buffs, (b.targetStudentIds.getD []).Nodup

instance (o : Option (NSkill K)) : Decidable (NSkillListsNodup o) := by
  unfold NSkillListsNodup
  cases o <;> infer_instance

/-- Every effect definition of the student has a duplicate-free explicit
target-id list, and every skill's effect-definition ids are duplicate-free. -/
def StudentListsNodup (stu : Student K) : Prop :=
  (∀ sk ∈ stu.ex, (sk.buffs.map (fun b => b.id)).Nodup ∧
    ∀ b ∈ sk.buffs, (b.targetStudentIds.getD []).Nodup) ∧
  NSkillListsNodup stu.ns

instance (stu : Student K) : Decidable (StudentListsNodup stu) := by
  unfold StudentListsNodup; infer_instance

theorem rawTargets_nodup {allStudentIds : List String} {event : ExEvent K}
    {buff : Buff K} {mode : TargetMode}
    (hall : allStudentIds.Nodup) (hev : EventListsNodup event)
    (hbuff : (buff.targetStudentIds.getD []).Nodup) :
    (rawTargets allStudentIds event buff mode).Nodup := by
  have hbuffIds : ∀ ids, buff.targetStudentIds = some ids → ids.Nodup := by
    intro ids h
    have := hbuff
    rw [h] at this
    simpa using this
  have hevIds : ∀ ids, event.targetStudentIds = some ids → ids.Nodup := by
    intro ids h
    have := hev.1
    rw [h] at this
    simpa using this
  cases mode with
  | enemy => simp [rawTargets]
  | all => simpa [rawTargets] using hall
  | self => simp [rawTargets]
  | student =>
    rw [rawTargets]
    rcases ho : recordGet event.buffTargets buff.id with _ | o
    · simp only [ho, Option.none_bind, optNonempty]
      cases hbt : buff.target with
      | some t =>
        simp only [hbt]
        rcases hbi : buff.targetStudentIds with _ | ids
        · simp [optNonempty]
        · cases ids with
          | nil => simp [optNonempty]
          | cons i is =>
            simpa [optNonempty] using hbuffIds _ hbi
      | none =>
        simp only [hbt]
        rcases hei : event.targetStudentIds with _ | ids
        · simp [optNonempty]
        · cases ids with
          | nil => simp [optNonempty]
          | cons i is =>
            simpa [optNonempty] using hevIds _ hei
    · simp only [ho, Option.some_bind]
      rcases hoi : o.targetStudentIds with _ | ids
      · simp only [hoi, optNonempty]
        cases hbt : buff.target with
        | some t =>
          simp only [hbt]
          rcases hbi : buff.targetStudentIds with _ | ids
          · simp [optNonempty]
          · cases ids with
            | nil => simp [optNonempty]
            | cons i is =>
              simpa [optNonempty] using hbuffIds _ hbi
        | none =>
          simp only [hbt]
          rcases hei : event.targetStudentIds with _ | ids
          · simp [optNonempty]
          · cases ids with
            | nil => simp [optNonempty]
            | cons i is =>
              simpa [optNonempty] using hevIds _ hei
      · cases ids with
        | nil =>
          simp only [hoi, optNonempty]
          cases hbt : buff.target with
          | some t =>
            simp only [hbt]
            rcases hbi : buff.targetStudentIds with _ | ids
            · simp [optNonempty]
            · cases ids with
              | nil => simp [optNonempty]
              | cons i is =>
                simpa [optNonempty] using hbuffIds _ hbi
          | none =>
            simp only [hbt]
            rcases hei : event.targetStudentIds with _ | ids
            · simp [optNonempty]
            · cases ids with
              | nil => simp [optNonempty]
              | cons i is =>
                simpa [optNonempty] using hevIds _ hei
        | cons i is =>
          obtain ⟨p, hp, hpv⟩ := recordGet_mem ho
          have hn := hev.2 p hp
          rw [hpv, hoi] at hn
          simp only [hoi, optNonempty, if_pos, Option.getD_some]
          simpa using hn

theorem finalTargets_nodup {allStudentIds : List String} {event : ExEvent K}
    {buff : Buff K} {mode : TargetMode}
    (hall : allStudentIds.Nodup) (hev : EventListsNodup event)
    (hbuff : (buff.targetStudentIds.getD []).Nodup) :
    (finalTargets allStudentIds event buff mode).Nodup := by
  cases mode with
  | enemy => simp [finalTargets]
  | all =>
    simp only [finalTargets]
    split
    · simp
    · exact (rawTargets_nodup hall hev hbuff).filter _
  | self =>
    simp only [finalTargets]
    split
    · simp
    · exact (rawTargets_nodup hall hev hbuff).filter _
  | student =>
    simp only [finalTargets]
    split
    · simp
    · exact (rawTargets_nodup hall hev hbuff).filter _

end TlPuzzle

namespace TlPuzzle

variable {K : Type} [LinearOrderedCommRing K]

/-! ### The expander, factored per event and per effect definition -/

/-- The instances one effect definition of one event contributes. -/
def buffInstancesOf (allStudentIds : List String) (timelineSeconds timeStep : K)
    (event : ExEvent K) (student : Student K) (skill : SkillRef K)
    (buff : Buff K) : List (BuffInstance K) :=
  let kind := buff.kind.getD .buff
  let targetMode := resolveTargetMode event buff
  let duration := instDuration timeStep event buff kind
  let stop := min (event.start + duration) timelineSeconds
  (finalTargets allStudentIds event buff targetMode).map
    (fun targetStudentId =>
      { id := event.id ++ ":" ++ buff.id ++ ":" ++ targetStudentId
        studentId := targetStudentId
        sourceStudentId := student.id
        name := buff.name
        kind := kind
        stat := buff.stat
        value := buff.value
        start := event.start
        stop := stop
        stackGroup := buff.stackGroup
        source := event.skillType
        sourceId := skill.id
        sourceEventId := some event.id
        sourceBuffId := buff.id })

/-- The instances one event contributes. -/
def eventInstances (students : List (Student K)) (timelineSeconds timeStep : K)
    (event : ExEvent K) : List (BuffInstance K) :=
  match findStudent students event.studentId with
  | none => []
  | some student =>
    match findSkill student event.skillType event.skillId with
    | none => []
    | some skill =>
      skill.buffs.flatMap
        (buffInstancesOf (students.map (fun s => s.id)) timelineSeconds
          timeStep event student skill)

theorem buildBuffInstances_eq (students : List (Student K))
    (events : List (ExEvent K)) (nsEnabled : List (String × Bool))
    (nsTargets : List (String × TargetOverride)) (timelineSeconds timeStep : K) :
    buildBuffInstances students events nsEnabled nsTargets timelineSeconds
        timeStep =
      events.flatMap (eventInstances students timelineSeconds timeStep) :=
  rfl

/-! ### Uniqueness of (event, effect, target) triples -/

theorem nodup_flatMap_of_key {α β γ : Type} (l : List α) (f : α → List β)
    (key : β → γ) (tag : α → γ)
    (htag : l.Pairwise (fun a a' => tag a ≠ tag a'))
    (hkey : ∀ a ∈ l, ∀ b ∈ f a, key b = tag a)
    (hinner : ∀ a ∈ l, (f a).Nodup) :
    (l.flatMap f).Nodup := by
  rw [List.nodup_flatMap]
  refine ⟨hinner, ?_⟩
  refine htag.imp_of_mem ?_
  intro a a' ha ha' hne x hxa hxa'
  exact hne ((hkey a ha x hxa).symm.trans (hkey a' ha' x hxa'))

/-- The reverse-lookup triple of an instance. -/
def instTriple (b : BuffInstance K) : Option String × String × String :=
  (b.sourceEventId, b.sourceBuffId, b.studentId)

theorem mem_buffInstancesOf_key {allStudentIds : List String}
    {timelineSeconds timeStep : K} {event : ExEvent K} {student : Student K}
    {skill : SkillRef K} {buff : Buff K} :
    ∀ x ∈ buffInstancesOf allStudentIds timelineSeconds timeStep event student
        skill buff,
      x.sourceEventId = some event.id ∧ x.sourceBuffId = buff.id := by
  intro x hx
  rw [buffInstancesOf, List.mem_map] at hx
  obtain ⟨tid, _, hxeq⟩ := hx
  subst hxeq
  exact ⟨rfl, rfl⟩

theorem buffInstancesOf_triples_nodup {allStudentIds : List String}
    {timelineSeconds timeStep : K} {event : ExEvent K} {student : Student K}
    {skill : SkillRef K} {buff : Buff K}
    (hall : allStudentIds.Nodup) (hev : EventListsNodup event)
    (hbuff : (buff.targetStudentIds.getD []).Nodup) :
    ((buffInstancesOf allStudentIds timelineSeconds timeStep event student
        skill buff).map instTriple).Nodup := by
  rw [buffInstancesOf, List.map_map]
  refine List.Nodup.map ?_ (finalTargets_nodup hall hev hbuff)
  intro t1 t2 he
  simpa [instTriple] using congrArg (fun t => t.2.2) he

theorem eventInstances_triples_nodup {students : List (Student K)}
    {timelineSeconds timeStep : K} {event : ExEvent K}
    (hstu : (students.map (fun s => s.id)).Nodup)
    (hev : EventListsNodup event)
    (hstl : ∀ s ∈ students, StudentListsNodup s) :
    ((eventInstances students timelineSeconds timeStep event).map
      instTriple).Nodup := by
  rw [eventInstances]
  rcases hfs : findStudent students event.studentId with _ | student
  · simp
  · simp only
    have hstu_mem : student ∈ students := by
      rw [findStudent] at hfs
      exact List.mem_of_find?_eq_some hfs
    have hsl := hstl student hstu_mem
    rcases hsk : findSkill student event.skillType event.skillId with _ | skill
    · simp
    · simp only
      have hbuffs : (skill.buffs.map (fun b => b.id)).Nodup ∧
          ∀ b ∈ skill.buffs, (b.targetStudentIds.getD []).Nodup := by
        cases hty : event.skillType with
        | ex =>
          simp only [findSkill.eq_def, hty] at hsk
          simp only [Option.map_eq_some'] at hsk
          obtain ⟨sk, hsk_mem, hsk_eq⟩ := hsk
          have hmem := hsl.1 sk (List.mem_of_find?_eq_some hsk_mem)
          subst hsk_eq
          exact hmem
        | ns =>
          simp only [findSkill.eq_def, hty] at hsk
          rcases hns : student.ns with _ | ns
          · simp only [hns] at hsk
            exact absurd hsk (by simp)
          · simp only [hns] at hsk
            by_cases hid : ns.id = event.skillId
            · rw [if_pos hid] at hsk
              have h2 := hsl.2
              rw [hns] at h2
              cases hsk
              exact h2
            · rw [if_neg hid] at hsk; simp at hsk
      rw [List.map_flatMap]
      refine nodup_flatMap_of_key _ _
        (fun t : Option String × String × String => t.2.1)
        (fun b : Buff K => b.id) ?_ ?_ ?_
      · exact (List.pairwise_map).mp hbuffs.1
      · intro b hb t ht
        rw [List.mem_map] at ht
        obtain ⟨x, hx, ht_eq⟩ := ht
        subst ht_eq
        exact (mem_buffInstancesOf_key x hx).2
      · intro b hb
        exact buffInstancesOf_triples_nodup hstu hev (hbuffs.2 b hb)

theorem eventInstances_key {students : List (Student K)}
    {timelineSeconds timeStep : K} {event : ExEvent K} :
    ∀ x ∈ eventInstances students timelineSeconds timeStep event,
      x.sourceEventId = some event.id := by
  intro x hx
  rw [eventInstances] at hx
  rcases hfs : findStudent students event.studentId with _ | student
  · simp only [hfs] at hx
    simp at hx
  · simp only [hfs] at hx
    rcases hsk : findSkill student event.skillType event.skillId with _ | skill
    · simp only [hsk] at hx
      simp at hx
    · simp only [hsk] at hx
      rw [List.mem_flatMap] at hx
      obtain ⟨buff, _, hxb⟩ := hx
      exact (mem_buffInstancesOf_key x hxb).1

/-- C8 (amended): provided the explicit target-id lists of events, overrides
and effect definitions are duplicate-free (the editor maintains them as sets),
and event ids, per-skill effect ids and student ids are unique,
`buildBuffInstances` never emits two Effect Instances with the same
(cast event id, effect definition id, target actor id) triple.  Without that
proviso it emits duplicates (see the counterexample). -/
theorem buildBuffInstances_triples_nodup
    (students : List (Student K)) (events : List (ExEvent K))
    (nsEnabled : List (String × Bool))
    (nsTargets : List (String × TargetOverride)) (timelineSeconds timeStep : K)
    (hev : (events.map (fun e => e.id)).Nodup)
    (hstu : (students.map (fun s => s.id)).Nodup)
    (hevl : ∀ e ∈ events, EventListsNodup e)
    (hstl : ∀ s ∈ students, StudentListsNodup s) :
    ((buildBuffInstances students events nsEnabled nsTargets timelineSeconds
        timeStep).map instTriple).Nodup := by
  rw [buildBuffInstances_eq, List.map_flatMap]
  refine nodup_flatMap_of_key _ _
    (fun t : Option String × String × String => t.1)
    (fun e : ExEvent K => some e.id) ?_ ?_ ?_
  · refine ((List.pairwise_map (f := fun e : ExEvent K => e.id)).mp hev).imp ?_
    intro a b hne he
    exact hne (by simpa using he)
  · intro e he t ht
    rw [List.mem_map] at ht
    obtain ⟨x, hx, ht_eq⟩ := ht
    subst ht_eq
    exact eventInstances_key x hx
  · intro e he
    exact eventInstances_triples_nodup hstu (hevl e he) hstl

theorem buildBuffInstances_triples_nodup_witness :
    ((buildBuffInstances [sampleStudentA, sampleStudentB] [sampleEvent1] [] []
        60 1).map instTriple).Nodup :=
  buildBuffInstances_triples_nodup [sampleStudentA, sampleStudentB]
    [sampleEvent1] [] [] 60 1 (by decide) (by decide) (by decide) (by decide)

end TlPuzzle

namespace TlPuzzle

variable {K : Type} [LinearOrderedCommRing K]

/-! ### The stat aggregator -/

theorem lookup_eq_none_iff {β : Type} :
    ∀ {l : List (String × β)} {k : String},
      l.lookup k = none ↔ ∀ p ∈ l, p.1 ≠ k := by
  intro l
  induction l with
  | nil => simp
  | cons p ps ih =>
    intro k
    rw [List.lookup_cons]
    cases hbeq : (k == p.1) with
    | true =>
      have hk : p.1 = k := (show k = p.1 by simpa using hbeq).symm
      constructor
      · intro h
        exact absurd h (by simp)
      · intro h
        exact absurd hk (h p (List.mem_cons_self _ _))
    | false =>
      have hk : p.1 ≠ k := by
        intro he
        rw [← he] at hbeq
        simp at hbeq
      show ps.lookup k = none ↔ _
      rw [ih]
      constructor
      · intro h q hq
        rcases List.mem_cons.mp hq with hq | hq
        · subst hq; exact hk
        · exact h q hq
      · intro h q hq
        exact h q (List.mem_cons_of_mem _ hq)

theorem lookup_mem_pair {β : Type} :
    ∀ {l : List (String × β)} {k : String} {v : β},
      l.lookup k = some v → ∃ p ∈ l, p.1 = k ∧ p.2 = v := by
  intro l
  induction l with
  | nil => intro k v h; simp at h
  | cons p ps ih =>
    intro k v h
    rw [List.lookup_cons] at h
    cases hbeq : (k == p.1) with
    | true =>
      rw [hbeq] at h
      exact ⟨p, List.mem_cons_self _ _, (show k = p.1 by simpa using hbeq).symm,
        by simpa using h⟩
    | false =>
      rw [hbeq] at h
      obtain ⟨q, hq, hqk, hqv⟩ := ih h
      exact ⟨q, List.mem_cons_of_mem _ hq, hqk, hqv⟩

theorem nodup_keys_eq {β : Type} {m : List (String × β)}
    (h2 : (m.map (fun p => p.1)).Nodup) {p q : String × β}
    (hp : p ∈ m) (hq : q ∈ m) (hk : p.1 = q.1) : p = q :=
  List.inj_on_of_nodup_map h2 hp hq hk

/-- The invariant of the `stacked` fold: `m` holds, per stat key, the
latest-start instance among the processed prefix, keyed consistently. -/
def StackedInv (processed : List (BuffInstance K))
    (m : List (String × BuffInstance K)) : Prop :=
  (∀ p ∈ m, p.1 = statKey p.2) ∧
  (m.map (fun p => p.1)).Nodup ∧
  (∀ p ∈ m, p.2 ∈ processed) ∧
  (∀ a ∈ processed, ∃ p ∈ m, p.1 = statKey a) ∧
  (∀ p ∈ m, ∀ a ∈ processed, statKey a = p.1 → a.start ≤ p.2.start)

theorem stackedStep_inv {processed : List (BuffInstance K)}
    {m : List (String × BuffInstance K)} {b : BuffInstance K}
    (h : StackedInv processed m) :
    StackedInv (processed ++ [b]) (stackedStep m b) := by
  obtain ⟨h1, h2, h3, h4, h5⟩ := h
  rcases hlk : m.lookup (statKey b) with _ | current
  · rw [stackedStep]
    simp only [hlk]
    have hnone : ∀ p ∈ m, p.1 ≠ statKey b := lookup_eq_none_iff.mp hlk
    have hany : ¬ (m.any (fun p => p.1 = statKey b) = true) := by
      rw [List.any_eq_true]
      rintro ⟨p, hp, hpk⟩
      exact hnone p hp (by simpa using hpk)
    rw [mapSet, if_neg hany]
    refine ⟨?_, ?_, ?_, ?_, ?_⟩
    · intro p hp
      rcases List.mem_append.mp hp with hp | hp
      · exact h1 p hp
      · rw [List.mem_singleton.mp hp]
    · rw [List.map_append]
      refine List.Nodup.append h2 (by simp) ?_
      intro x hx hx'
      simp only [List.map_cons, List.map_nil, List.mem_singleton] at hx'
      subst hx'
      rw [List.mem_map] at hx
      obtain ⟨p, hp, hpk⟩ := hx
      exact hnone p hp hpk
    · intro p hp
      rcases List.mem_append.mp hp with hp | hp
      · exact List.mem_append_left _ (h3 p hp)
      · rw [List.mem_singleton.mp hp]
        exact List.mem_append_right _ (List.mem_singleton.mpr rfl)
    · intro a ha
      rcases List.mem_append.mp ha with ha | ha
      · obtain ⟨p, hp, hpk⟩ := h4 a ha
        exact ⟨p, List.mem_append_left _ hp, hpk⟩
      · rw [List.mem_singleton.mp ha]
        exact ⟨(statKey b, b), List.mem_append_right _ (List.mem_singleton.mpr rfl), rfl⟩
    · intro p hp a ha hka
      rcases List.mem_append.mp hp with hp | hp
      · rcases List.mem_append.mp ha with ha | ha
        · exact h5 p hp a ha hka
        · rw [List.mem_singleton.mp ha] at hka ⊢
          exact absurd hka.symm (hnone p hp)
      · rw [List.mem_singleton.mp hp] at hka ⊢
        rcases List.mem_append.mp ha with ha | ha
        · obtain ⟨q, hq, hqk⟩ := h4 a ha
          exact absurd (hqk.trans hka) (hnone q hq)
        · rw [List.mem_singleton.mp ha]
  · rw [stackedStep]
    simp only [hlk]
    obtain ⟨q, hq, hqk, hqv⟩ := lookup_mem_pair hlk
    have hany : m.any (fun p => p.1 = statKey b) = true := by
      rw [List.any_eq_true]
      exact ⟨q, hq, by simpa using hqk⟩
    by_cases hgt : b.start > current.start
    · rw [if_pos hgt, mapSet, if_pos hany]
      refine ⟨?_, ?_, ?_, ?_, ?_⟩
      · intro p hp
        rw [List.mem_map] at hp
        obtain ⟨r, hr, hrp⟩ := hp
        by_cases hrk : r.1 = statKey b
        · rw [if_pos hrk] at hrp
          rw [← hrp]
        · rw [if_neg hrk] at hrp
          rw [← hrp]
          exact h1 r hr
      · have : (m.map (fun p => if p.1 = statKey b then (statKey b, b) else p)).map
            (fun p => p.1) = m.map (fun p => p.1) := by
          rw [List.map_map]
          refine List.map_congr_left ?_
          intro p _
          by_cases hpk : p.1 = statKey b
          · simp [hpk]
          · simp [hpk]
        rw [this]
        exact h2
      · intro p hp
        rw [List.mem_map] at hp
        obtain ⟨r, hr, hrp⟩ := hp
        by_cases hrk : r.1 = statKey b
        · rw [if_pos hrk] at hrp
          rw [← hrp]
          exact List.mem_append_right _ (List.mem_singleton.mpr rfl)
        · rw [if_neg hrk] at hrp
          rw [← hrp]
          exact List.mem_append_left _ (h3 r hr)
      · intro a ha
        rcases List.mem_append.mp ha with ha | ha
        · obtain ⟨p, hp, hpk⟩ := h4 a ha
          by_cases hpk' : p.1 = statKey b
          · refine ⟨(statKey b, b), ?_, hpk' ▸ hpk⟩
            rw [List.mem_map]
            exact ⟨p, hp, by rw [if_pos hpk']⟩
          · refine ⟨p, ?_, hpk⟩
            rw [List.mem_map]
            exact ⟨p, hp, by rw [if_neg hpk']⟩
        · rw [List.mem_singleton.mp ha]
          refine ⟨(statKey b, b), ?_, rfl⟩
          rw [List.mem_map]
          exact ⟨q, hq, by rw [if_pos hqk]⟩
      · intro p hp a ha hka
        rw [List.mem_map] at hp
        obtain ⟨r, hr, hrp⟩ := hp
        by_cases hrk : r.1 = statKey b
        · rw [if_pos hrk] at hrp
          rw [← hrp] at hka ⊢
          rcases List.mem_append.mp ha with ha | ha
          · have := h5 q hq a ha (by rw [hka, hqk])
            rw [hqv] at this
            exact le_trans this (le_of_lt hgt)
          · rw [List.mem_singleton.mp ha]
        · rw [if_neg hrk] at hrp
          rw [← hrp] at hka ⊢
          rcases List.mem_append.mp ha with ha | ha
          · exact h5 r hr a ha hka
          · rw [List.mem_singleton.mp ha] at hka
            exact absurd (hka.symm : r.1 = statKey b) hrk
    · rw [if_neg hgt]
      refine ⟨h1, h2, ?_, ?_, ?_⟩
      · intro p hp
        exact List.mem_append_left _ (h3 p hp)
      · intro a ha
        rcases List.mem_append.mp ha with ha | ha
        · exact h4 a ha
        · rw [List.mem_singleton.mp ha]
          exact ⟨q, hq, hqk⟩
      · intro p hp a ha hka
        rcases List.mem_append.mp ha with ha | ha
        · exact h5 p hp a ha hka
        · rw [List.mem_singleton.mp ha] at hka ⊢
          by_cases hpq : p.1 = statKey b
          · have hpcur : p.2.start = current.start := by
              have hkeys := h2
              have : p = q := by
                have h_inj : p.1 = q.1 := by rw [hpq, hqk]
                exact nodup_keys_eq h2 hp hq h_inj
              rw [this, hqv]
            rw [hpcur]
            exact le_of_not_lt hgt
          · exact absurd (hka.symm : p.1 = statKey b) hpq

end TlPuzzle

namespace TlPuzzle

variable {K : Type} [LinearOrderedCommRing K]

theorem foldl_stacked_inv :
    ∀ (l processed : List (BuffInstance K))
      (m : List (String × BuffInstance K)),
      StackedInv processed m →
      StackedInv (processed ++ l) (l.foldl stackedStep m) := by
  intro l
  induction l with
  | nil =>
    intro processed m h
    simpa using h
  | cons b rest ih =>
    intro processed m h
    have hstep := stackedStep_inv (b := b) h
    have := ih (processed ++ [b]) (stackedStep m b) hstep
    simpa using this

theorem stacked_inv_init (active : List (BuffInstance K)) :
    StackedInv active (active.foldl stackedStep []) := by
  have h0 : StackedInv ([] : List (BuffInstance K)) [] := by
    refine ⟨?_, ?_, ?_, ?_, ?_⟩ <;> simp
  simpa using foldl_stacked_inv active [] [] h0

/-- The signed contribution of one surviving instance to one stat's total. -/
def contrib (s : BuffStat) (b : BuffInstance K) : K :=
  match b.kind with
  | .attack => 0
  | .debuff => if b.stat = s then -b.value else 0
  | .buff => if b.stat = s then b.value else 0

/-- One step of the totals fold of `computeStatsAtTime`. -/
def totalsStep (t : Stats K) (b : BuffInstance K) : Stats K :=
  match b.kind with
  | .attack => t
  | .debuff => addStat t b.stat (-b.value)
  | .buff => addStat t b.stat b.value

def statGet (t : Stats K) : BuffStat → K
  | .atk => t.atk
  | .crit => t.crit
  | .critDmg => t.critDmg

theorem totalsStep_statGet (t : Stats K) (b : BuffInstance K) (s : BuffStat) :
    statGet (totalsStep t b) s = statGet t s + contrib s b := by
  rw [totalsStep, contrib]
  cases b.kind with
  | attack => simp [statGet]
  | debuff =>
    by_cases hst : b.stat = s
    · subst hst
      cases hs : b.stat <;> simp [addStat, statGet, hs]
    · cases hs : b.stat <;> rw [hs] at hst <;> cases s <;>
        simp [addStat, statGet, hst]
  | buff =>
    by_cases hst : b.stat = s
    · subst hst
      cases hs : b.stat <;> simp [addStat, statGet, hs]
    · cases hs : b.stat <;> rw [hs] at hst <;> cases s <;>
        simp [addStat, statGet, hst]

theorem foldl_totalsStep_statGet (s : BuffStat) :
    ∀ (S : List (BuffInstance K)) (t : Stats K),
      statGet (S.foldl totalsStep t) s = statGet t s + (S.map (contrib s)).sum := by
  intro S
  induction S with
  | nil => intro t; simp
  | cons b S ih =>
    intro t
    rw [List.foldl_cons, ih, totalsStep_statGet, List.map_cons, List.sum_cons,
      add_assoc]

theorem computeStatsAtTime_active (target : StatTarget K) (time : K)
    (l : List (BuffInstance K)) :
    (computeStatsAtTime target time l).active =
      l.filter (fun item =>
        item.studentId = target.id ∧ item.start ≤ time ∧ time < item.stop) :=
  rfl

theorem computeStatsAtTime_totals (target : StatTarget K) (time : K)
    (l : List (BuffInstance K)) :
    (computeStatsAtTime target time l).totals =
      ((((computeStatsAtTime target time l).active.foldl stackedStep []).map
        (fun p => p.2)).foldl totalsStep ⟨0, 0, 0⟩) :=
  rfl

theorem computeStatsAtTime_computed (target : StatTarget K) (time : K)
    (l : List (BuffInstance K)) :
    (computeStatsAtTime target time l).computed =
      ⟨target.stats.atk * (1 + (computeStatsAtTime target time l).totals.atk),
       target.stats.crit * (1 + (computeStatsAtTime target time l).totals.crit),
       target.stats.critDmg *
         (1 + (computeStatsAtTime target time l).totals.critDmg)⟩ :=
  rfl

/-- C2: the Stat Aggregator (i) keeps exactly the instances of the target
active at `t` under the closed-open convention, (ii) totals the active set by
(stat, stack group, kind) keeping only a latest-start representative per
group, with buffs adding `+magnitude`, debuffs `-magnitude` and attacks
nothing, and (iii) computes each stat as `base × (1 + total)` independently. -/
theorem computeStatsAtTime_spec (target : StatTarget K) (time : K)
    (l : List (BuffInstance K)) :
    (∀ x, x ∈ (computeStatsAtTime target time l).active ↔
      (x ∈ l ∧ x.studentId = target.id ∧ x.start ≤ time ∧ time < x.stop)) ∧
    (∃ S : List (BuffInstance K),
      (∀ v ∈ S, v ∈ (computeStatsAtTime target time l).active) ∧
      (S.map statKey).Nodup ∧
      (∀ a ∈ (computeStatsAtTime target time l).active,
        ∃ v ∈ S, statKey v = statKey a) ∧
      (∀ v ∈ S, ∀ a ∈ (computeStatsAtTime target time l).active,
        statKey a = statKey v → a.start ≤ v.start) ∧
      (computeStatsAtTime target time l).totals.atk =
        (S.map (contrib .atk)).sum ∧
      (computeStatsAtTime target time l).totals.crit =
        (S.map (contrib .crit)).sum ∧
      (computeStatsAtTime target time l).totals.critDmg =
        (S.map (contrib .critDmg)).sum) ∧
    ((computeStatsAtTime target time l).computed.atk =
      target.stats.atk * (1 + (computeStatsAtTime target time l).totals.atk) ∧
    (computeStatsAtTime target time l).computed.crit =
      target.stats.crit * (1 + (computeStatsAtTime target time l).totals.crit) ∧
    (computeStatsAtTime target time l).computed.critDmg =
      target.stats.critDmg *
        (1 + (computeStatsAtTime target time l).totals.critDmg)) := by
  refine ⟨?_, ?_, ?_⟩
  · intro x
    rw [computeStatsAtTime_active, List.mem_filter]
    constructor
    · rintro ⟨hm, hp⟩
      exact ⟨hm, by simpa using hp⟩
    · rintro ⟨hm, hp⟩
      exact ⟨hm, by simpa using hp⟩
  · obtain ⟨h1, h2, h3, h4, h5⟩ :=
      stacked_inv_init (computeStatsAtTime target time l).active
    refine ⟨(((computeStatsAtTime target time l).active.foldl stackedStep
        []).map (fun p => p.2)), ?_, ?_, ?_, ?_, ?_, ?_, ?_⟩
    · intro v hv
      rw [List.mem_map] at hv
      obtain ⟨p, hp, hpv⟩ := hv
      exact hpv ▸ h3 p hp
    · have : ((computeStatsAtTime target time l).active.foldl stackedStep
          []).map (fun p => statKey p.2) =
          ((computeStatsAtTime target time l).active.foldl stackedStep
          []).map (fun p => p.1) := by
        refine List.map_congr_left ?_
        intro p hp
        exact (h1 p hp).symm
      rw [List.map_map]
      show (((computeStatsAtTime target time l).active.foldl stackedStep
          []).map (fun p => statKey p.2)).Nodup
      rw [this]
      exact h2
    · intro a ha
      obtain ⟨p, hp, hpk⟩ := h4 a ha
      refine ⟨p.2, ?_, ?_⟩
      · rw [List.mem_map]
        exact ⟨p, hp, rfl⟩
      · rw [← h1 p hp, hpk]
    · intro v hv a ha hka
      rw [List.mem_map] at hv
      obtain ⟨p, hp, hpv⟩ := hv
      subst hpv
      refine h5 p hp a ha ?_
      rw [h1 p hp]
      exact hka
    · rw [computeStatsAtTime_totals]
      have := foldl_totalsStep_statGet (K := K) .atk
        ((((computeStatsAtTime target time l).active.foldl stackedStep
          []).map (fun p => p.2))) ⟨0, 0, 0⟩
      simpa [statGet] using this
    · rw [computeStatsAtTime_totals]
      have := foldl_totalsStep_statGet (K := K) .crit
        ((((computeStatsAtTime target time l).active.foldl stackedStep
          []).map (fun p => p.2))) ⟨0, 0, 0⟩
      simpa [statGet] using this
    · rw [computeStatsAtTime_totals]
      have := foldl_totalsStep_statGet (K := K) .critDmg
        ((((computeStatsAtTime target time l).active.foldl stackedStep
          []).map (fun p => p.2))) ⟨0, 0, 0⟩
      simpa [statGet] using this
  · rw [computeStatsAtTime_computed]
    exact ⟨rfl, rfl, rfl⟩

theorem computeStatsAtTime_spec_witness :
    (∀ x, x ∈ (computeStatsAtTime ⟨"s.a", ⟨1000, 200, 200⟩⟩ 4
        [sampleInst1, sampleInst2]).active ↔
      (x ∈ [sampleInst1, sampleInst2] ∧ x.studentId = "s.a" ∧
        x.start ≤ 4 ∧ (4 : ℤ) < x.stop)) ∧
    (∃ S : List (BuffInstance ℤ),
      (∀ v ∈ S, v ∈ (computeStatsAtTime ⟨"s.a", ⟨1000, 200, 200⟩⟩ 4
        [sampleInst1, sampleInst2]).active) ∧
      (S.map statKey).Nodup ∧
      (∀ a ∈ (computeStatsAtTime ⟨"s.a", ⟨1000, 200, 200⟩⟩ 4
          [sampleInst1, sampleInst2]).active, ∃ v ∈ S, statKey v = statKey a) ∧
      (∀ v ∈ S, ∀ a ∈ (computeStatsAtTime ⟨"s.a", ⟨1000, 200, 200⟩⟩ 4
          [sampleInst1, sampleInst2]).active,
        statKey a = statKey v → a.start ≤ v.start) ∧
      (computeStatsAtTime ⟨"s.a", ⟨1000, 200, 200⟩⟩ 4
        [sampleInst1, sampleInst2]).totals.atk = (S.map (contrib .atk)).sum ∧
      (computeStatsAtTime ⟨"s.a", ⟨1000, 200, 200⟩⟩ 4
        [sampleInst1, sampleInst2]).totals.crit = (S.map (contrib .crit)).sum ∧
      (computeStatsAtTime ⟨"s.a", ⟨1000, 200, 200⟩⟩ 4
        [sampleInst1, sampleInst2]).totals.critDmg =
          (S.map (contrib .critDmg)).sum) ∧
    ((computeStatsAtTime ⟨"s.a", ⟨1000, 200, 200⟩⟩ 4
        [sampleInst1, sampleInst2]).computed.atk =
      1000 * (1 + (computeStatsAtTime ⟨"s.a", ⟨1000, 200, 200⟩⟩ 4
        [sampleInst1, sampleInst2]).totals.atk) ∧
    (computeStatsAtTime ⟨"s.a", ⟨1000, 200, 200⟩⟩ 4
        [sampleInst1, sampleInst2]).computed.crit =
      200 * (1 + (computeStatsAtTime ⟨"s.a", ⟨1000, 200, 200⟩⟩ 4
        [sampleInst1, sampleInst2]).totals.crit) ∧
    (computeStatsAtTime ⟨"s.a", ⟨1000, 200, 200⟩⟩ 4
        [sampleInst1, sampleInst2]).computed.critDmg =
      200 * (1 + (computeStatsAtTime ⟨"s.a", ⟨1000, 200, 200⟩⟩ 4
        [sampleInst1, sampleInst2]).totals.critDmg)) :=
  computeStatsAtTime_spec ⟨"s.a", ⟨1000, 200, 200⟩⟩ 4 [sampleInst1, sampleInst2]

end TlPuzzle

namespace TlPuzzle

variable {K : Type} [LinearOrderedCommRing K]

/-! ### Lane assignment -/

theorem startLE_trans : ∀ (a b c : BuffInstance K),
    startLE a b → startLE b c → startLE a c := by
  intro a b c hab hbc
  exact le_trans hab hbc

theorem startLE_total : ∀ (a b : BuffInstance K), startLE a b ∨ startLE b a := by
  intro a b
  exact le_total a.start b.start

instance : IsTrans (BuffInstance K) startLE :=
  ⟨startLE_trans⟩

instance : IsTotal (BuffInstance K) startLE :=
  ⟨startLE_total⟩

/-- The number of instances simultaneously active at instant `t`. -/
def countActive (l : List (BuffInstance K)) (t : K) : Nat :=
  (l.filter (fun b => b.start ≤ t ∧ t < b.stop)).length

/-- Two instances overlap in time. -/
def Overlap (a b : BuffInstance K) : Prop :=
  a.start < b.stop ∧ b.start < a.stop

instance (a b : BuffInstance K) : Decidable (Overlap a b) := by
  unfold Overlap; infer_instance

theorem laneOf_cons_self (m : List (String × Nat)) (id : String) (n : Nat) :
    laneOf ((id, n) :: m) id = some n := by
  rw [laneOf, List.find?_cons_of_pos]
  · rfl
  · simp

theorem laneOf_cons_ne (m : List (String × Nat)) {id id' : String}
    (h : id' ≠ id) (n : Nat) :
    laneOf ((id, n) :: m) id' = laneOf m id' := by
  rw [laneOf, List.find?_cons_of_neg, laneOf]
  simpa using Ne.symm h

/-- `n` instances with distinct ids, all active at `t` and all in `full`,
bound `countActive` from below. -/
theorem le_countActive (full : List (BuffInstance K)) (t : K) (n : Nat)
    (g : Fin n → BuffInstance K)
    (hinj : ∀ i j, (g i).id = (g j).id → i = j)
    (hmem : ∀ i, g i ∈ full)
    (hact : ∀ i, (g i).start ≤ t ∧ t < (g i).stop) :
    n ≤ countActive full t := by
  classical
  have hginA : ∀ i, (g i).id ∈
      ((full.filter (fun b => b.start ≤ t ∧ t < b.stop)).map
        (fun b => b.id)) := by
    intro i
    rw [List.mem_map]
    exact ⟨g i, List.mem_filter.mpr ⟨hmem i, by simpa using hact i⟩, rfl⟩
  have h2 : (Finset.univ : Finset (Fin n)).card ≤
      ((full.filter (fun b => b.start ≤ t ∧ t < b.stop)).map
        (fun b => b.id)).toFinset.card := by
    refine Finset.card_le_card_of_injOn (fun i => (g i).id) ?_ ?_
    · intro i _
      rw [List.mem_toFinset]
      exact hginA i
    · intro i _ j _ h
      exact hinj i j h
  have h3 := List.toFinset_card_le
      ((full.filter (fun b => b.start ≤ t ∧ t < b.stop)).map (fun b => b.id))
  rw [List.length_map] at h3
  calc n = (Finset.univ : Finset (Fin n)).card := by simp
    _ ≤ _ := h2
    _ ≤ _ := h3

/-- A lane assignment into `klanes` lanes with non-overlapping lanes bounds
`countActive` from above. -/
theorem countActive_le_of_lanes (l : List (BuffInstance K)) (t : K)
    (m : List (String × Nat)) (klanes : Nat)
    (hids : (l.map (fun b => b.id)).Nodup)
    (hassign : ∀ x ∈ l, ∃ n, laneOf m x.id = some n ∧ n < klanes)
    (hdisj : ∀ a ∈ l, ∀ b ∈ l, a.id ≠ b.id → laneOf m a.id = laneOf m b.id →
      a.stop ≤ b.start ∨ b.stop ≤ a.start) :
    countActive l t ≤ klanes := by
  classical
  have hsubA : ∀ x ∈ l.filter (fun b => b.start ≤ t ∧ t < b.stop), x ∈ l :=
    fun x hx => List.mem_of_mem_filter hx
  have hAids : ((l.filter (fun b => b.start ≤ t ∧ t < b.stop)).map
      (fun b => b.id)).Nodup :=
    ((List.filter_sublist _).map _).nodup hids
  have hAnodup : (l.filter (fun b => b.start ≤ t ∧ t < b.stop)).Nodup :=
    hAids.of_map
  have hio : ∀ x ∈ l.filter (fun b => b.start ≤ t ∧ t < b.stop),
      ∀ y ∈ l.filter (fun b => b.start ≤ t ∧ t < b.stop),
      (laneOf m x.id).getD 0 = (laneOf m y.id).getD 0 → x = y := by
    intro x hx y hy hf
    by_cases hxy : x.id = y.id
    · exact List.inj_on_of_nodup_map hAids hx hy hxy
    · obtain ⟨nx, hnx, _⟩ := hassign x (hsubA x hx)
      obtain ⟨ny, hny, _⟩ := hassign y (hsubA y hy)
      rw [hnx, hny] at hf
      simp only [Option.getD_some] at hf
      subst hf
      have hlanes : laneOf m x.id = laneOf m y.id := by rw [hnx, hny]
      have hx' := List.mem_filter.mp hx
      have hy' := List.mem_filter.mp hy
      have hxact : x.start ≤ t ∧ t < x.stop := by simpa using hx'.2
      have hyact : y.start ≤ t ∧ t < y.stop := by simpa using hy'.2
      rcases hdisj x hx'.1 y hy'.1 hxy hlanes with h | h
      · exact absurd (lt_of_le_of_lt (le_trans h hyact.1) hxact.2)
          (lt_irrefl _)
      · exact absurd (lt_of_le_of_lt (le_trans h hxact.1) hyact.2)
          (lt_irrefl _)
  have hmapnd : ((l.filter (fun b => b.start ≤ t ∧ t < b.stop)).map
      (fun x => (laneOf m x.id).getD 0)).Nodup :=
    List.Nodup.map_on hio hAnodup
  have hbound : ∀ v ∈ (l.filter (fun b => b.start ≤ t ∧ t < b.stop)).map
      (fun x => (laneOf m x.id).getD 0), v < klanes := by
    intro v hv
    rw [List.mem_map] at hv
    obtain ⟨x, hx, hxv⟩ := hv
    obtain ⟨nx, hnx, hlt⟩ := hassign x (hsubA x hx)
    rw [← hxv, hnx]
    simpa using hlt
  have hsub : ((l.filter (fun b => b.start ≤ t ∧ t < b.stop)).map
      (fun x => (laneOf m x.id).getD 0)) ⊆ List.range klanes := by
    intro v hv
    rw [List.mem_range]
    exact hbound v hv
  have := (List.subperm_of_subset hmapnd hsub).length_le
  rw [List.length_map, List.length_range] at this
  exact this

/-- The invariant of the greedy lane fold over the processed prefix `P`:
every processed instance has a lane below the lane count, each lane's end is
the stop of its latest representative and bounds every member, lanes are
non-overlapping, and (unless no lane is open) some instant witnesses
`laneEnds.length` many simultaneously active instances of `full`. -/
def LaneInv (full P : List (BuffInstance K)) (ends : List K)
    (m : List (String × Nat)) : Prop :=
  (∀ x ∈ P, ∃ n, laneOf m x.id = some n ∧ n < ends.length) ∧
  (∀ i e, ends[i]? = some e → ∃ x ∈ P, laneOf m x.id = some i ∧
    x.stop = e ∧ ∀ y ∈ P, laneOf m y.id = some i → y.stop ≤ e) ∧
  (∀ a ∈ P, ∀ b ∈ P, a.id ≠ b.id → laneOf m a.id = laneOf m b.id →
    a.stop ≤ b.start ∨ b.stop ≤ a.start) ∧
  (ends = [] ∨ ∃ t, ends.length ≤ countActive full t)

end TlPuzzle

namespace TlPuzzle

variable {K : Type} [LinearOrderedCommRing K]

theorem laneStep_inv {full P : List (BuffInstance K)} {ends : List K}
    {m : List (String × Nat)} {b : BuffInstance K}
    (hsorted : ∀ y ∈ P, y.start ≤ b.start)
    (hposb : b.start < b.stop)
    (hidsP : ∀ y ∈ P, y.id ≠ b.id)
    (hmemb : b ∈ full)
    (hmemP : ∀ y ∈ P, y ∈ full)
    (h : LaneInv full P ends m) :
    LaneInv full (P ++ [b]) (laneStep (ends, m) b).1 (laneStep (ends, m) b).2 := by
  obtain ⟨hA, hC, hE, hF⟩ := h
  rcases hidx : ends.findIdx? (fun e => b.start ≥ e) with _ | i
  · have hnone : ∀ e ∈ ends, b.start < e := by
      intro e he
      have := List.findIdx?_eq_none_iff.mp hidx e he
      have : ¬ (e ≤ b.start) := by simpa using this
      exact lt_of_not_le this
    rw [laneStep]
    simp only [hidx]
    refine ⟨?_, ?_, ?_, ?_⟩
    · intro x hx
      rcases List.mem_append.mp hx with hx | hx
      · obtain ⟨n, hn, hlt⟩ := hA x hx
        refine ⟨n, ?_, ?_⟩
        · rw [laneOf_cons_ne m (hidsP x hx) _]
          exact hn
        · simp only [List.length_append, List.length_cons, List.length_nil]
          omega
      · rw [List.mem_singleton.mp hx]
        refine ⟨ends.length, laneOf_cons_self _ _ _, ?_⟩
        simp
    · intro i e hie
      by_cases hilt : i < ends.length
      · rw [List.getElem?_append_left hilt] at hie
        obtain ⟨x, hxP, hxl, hxe, hxmax⟩ := hC i e hie
        refine ⟨x, List.mem_append_left _ hxP, ?_, hxe, ?_⟩
        · rw [laneOf_cons_ne m (hidsP x hxP) _]
          exact hxl
        · intro y hy hyl
          rcases List.mem_append.mp hy with hy | hy
          · rw [laneOf_cons_ne m (hidsP y hy) _] at hyl
            exact hxmax y hy hyl
          · rw [List.mem_singleton.mp hy] at hyl
            rw [List.mem_singleton.mp hy]
            rw [laneOf_cons_self] at hyl
            have : ends.length = i := by simpa using hyl
            omega
      · have hieq : i = ends.length := by
          have hlen : i < ends.length + 1 := by
            have := List.getElem?_eq_some_iff.mp hie
            obtain ⟨hb, _⟩ := this
            simpa using hb
          omega
        subst hieq
        rw [List.getElem?_concat_length] at hie
        have hbe : b.stop = e := by simpa using hie
        refine ⟨b, List.mem_append_right _ (List.mem_singleton.mpr rfl),
          laneOf_cons_self _ _ _, hbe, ?_⟩
        intro y hy hyl
        rcases List.mem_append.mp hy with hy | hy
        · rw [laneOf_cons_ne m (hidsP y hy) _] at hyl
          obtain ⟨n, hn, hlt⟩ := hA y hy
          rw [hn] at hyl
          have : n = ends.length := by simpa using hyl
          omega
        · rw [List.mem_singleton.mp hy, ← hbe]
    · intro a ha c hc hne hl
      rcases List.mem_append.mp ha with ha | ha <;>
        rcases List.mem_append.mp hc with hc | hc
      · rw [laneOf_cons_ne m (hidsP a ha) _,
          laneOf_cons_ne m (hidsP c hc) _] at hl
        exact hE a ha c hc hne hl
      · rw [List.mem_singleton.mp hc] at hl
        rw [laneOf_cons_ne m (hidsP a ha) _, laneOf_cons_self] at hl
        obtain ⟨n, hn, hlt⟩ := hA a ha
        rw [hn] at hl
        have : n = ends.length := by simpa using hl
        omega
      · rw [List.mem_singleton.mp ha] at hl
        rw [laneOf_cons_self, laneOf_cons_ne m (hidsP c hc) _] at hl
        obtain ⟨n, hn, hlt⟩ := hA c hc
        rw [hn] at hl
        have : ends.length = n := by simpa using hl
        omega
      · rw [List.mem_singleton.mp ha, List.mem_singleton.mp hc] at hne
        exact absurd rfl hne
    · right
      refine ⟨b.start, ?_⟩
      classical
      have hch : ∀ i : Fin ends.length, ∃ x, x ∈ P ∧
          laneOf m x.id = some i.val ∧ x.stop = ends.get i := by
        intro i
        obtain ⟨x, hxP, hxl, hxe, _⟩ := hC i.val (ends.get i)
          (by rw [List.get_eq_getElem]; exact (List.getElem?_eq_getElem i.isLt).symm ▸ rfl)
        exact ⟨x, hxP, hxl, hxe⟩
      choose f hf using hch
      have hlen : (ends ++ [b.stop]).length = ends.length + 1 := by simp
      rw [hlen]
      refine le_countActive full b.start (ends.length + 1)
        (fun i => if hi : i.val < ends.length then f ⟨i.val, hi⟩ else b)
        ?_ ?_ ?_
      · intro i j hij
        by_cases hi : i.val < ends.length <;> by_cases hj : j.val < ends.length
        · simp only [dif_pos hi, dif_pos hj] at hij
          have h1 := (hf ⟨i.val, hi⟩).2.1
          have h2 := (hf ⟨j.val, hj⟩).2.1
          rw [hij, h2] at h1
          have : i.val = j.val := by simpa using h1.symm
          exact Fin.ext this
        · simp only [dif_pos hi, dif_neg hj] at hij
          exact absurd hij (hidsP _ (hf ⟨i.val, hi⟩).1)
        · simp only [dif_neg hi, dif_pos hj] at hij
          exact absurd hij.symm (hidsP _ (hf ⟨j.val, hj⟩).1)
        · have : i.val = ends.length := by omega
          have hj' : j.val = ends.length := by omega
          exact Fin.ext (by omega)
      · intro i
        by_cases hi : i.val < ends.length
        · simp only [dif_pos hi]
          exact hmemP _ (hf ⟨i.val, hi⟩).1
        · simp only [dif_neg hi]
          exact hmemb
      · intro i
        by_cases hi : i.val < ends.length
        · simp only [dif_pos hi]
          refine ⟨hsorted _ (hf ⟨i.val, hi⟩).1, ?_⟩
          rw [(hf ⟨i.val, hi⟩).2.2]
          exact hnone _ (List.get_mem _ _ _)
        · simp only [dif_neg hi]
          exact ⟨le_refl _, hposb⟩
  · have hidx' := List.findIdx?_eq_some_iff_getElem.mp hidx
    obtain ⟨hilt, hple, _⟩ := hidx'
    have hle : ends[i] ≤ b.start := by simpa using hple
    rw [laneStep]
    simp only [hidx]
    refine ⟨?_, ?_, ?_, ?_⟩
    · intro x hx
      rcases List.mem_append.mp hx with hx | hx
      · obtain ⟨n, hn, hlt⟩ := hA x hx
        refine ⟨n, ?_, by simpa using hlt⟩
        rw [laneOf_cons_ne m (hidsP x hx) _]
        exact hn
      · rw [List.mem_singleton.mp hx]
        exact ⟨i, laneOf_cons_self _ _ _, by simpa using hilt⟩
    · intro j e hje
      by_cases hji : j = i
      · subst hji
        rw [List.getElem?_set_self (by simpa using hilt)] at hje
        have hbe : b.stop = e := by simpa using hje
        refine ⟨b, List.mem_append_right _ (List.mem_singleton.mpr rfl),
          laneOf_cons_self _ _ _, hbe, ?_⟩
        intro y hy hyl
        rcases List.mem_append.mp hy with hy | hy
        · rw [laneOf_cons_ne m (hidsP y hy) _] at hyl
          obtain ⟨x, hxP, hxl, hxe, hxmax⟩ := hC j ends[j]
            ((List.getElem?_eq_getElem hilt))
          have := hxmax y hy hyl
          rw [← hbe]
          exact le_trans this (le_trans hle (le_of_lt hposb))
        · rw [List.mem_singleton.mp hy, ← hbe]
      · rw [List.getElem?_set_ne (Ne.symm hji)] at hje
        obtain ⟨x, hxP, hxl, hxe, hxmax⟩ := hC j e hje
        refine ⟨x, List.mem_append_left _ hxP, ?_, hxe, ?_⟩
        · rw [laneOf_cons_ne m (hidsP x hxP) _]
          exact hxl
        · intro y hy hyl
          rcases List.mem_append.mp hy with hy | hy
          · rw [laneOf_cons_ne m (hidsP y hy) _] at hyl
            exact hxmax y hy hyl
          · rw [List.mem_singleton.mp hy] at hyl
            rw [laneOf_cons_self] at hyl
            have : i = j := by simpa using hyl
            exact absurd this.symm hji
    · intro a ha c hc hne hl
      rcases List.mem_append.mp ha with ha | ha <;>
        rcases List.mem_append.mp hc with hc | hc
      · rw [laneOf_cons_ne m (hidsP a ha) _,
          laneOf_cons_ne m (hidsP c hc) _] at hl
        exact hE a ha c hc hne hl
      · rw [List.mem_singleton.mp hc] at hl ⊢
        rw [laneOf_cons_ne m (hidsP a ha) _, laneOf_cons_self] at hl
        obtain ⟨n, hn, hlt⟩ := hA a ha
        rw [hn] at hl
        have hni : n = i := by simpa using hl
        subst hni
        obtain ⟨x, hxP, hxl, hxe, hxmax⟩ := hC n ends[n]
          ((List.getElem?_eq_getElem hilt))
        have := hxmax a ha hn
        exact Or.inl (le_trans this hle)
      · rw [List.mem_singleton.mp ha] at hl ⊢
        rw [laneOf_cons_self, laneOf_cons_ne m (hidsP c hc) _] at hl
        obtain ⟨n, hn, hlt⟩ := hA c hc
        rw [hn] at hl
        have hni : i = n := by simpa using hl
        subst hni
        obtain ⟨x, hxP, hxl, hxe, hxmax⟩ := hC i ends[i]
          ((List.getElem?_eq_getElem hilt))
        have := hxmax c hc hn
        exact Or.inr (le_trans this hle)
      · rw [List.mem_singleton.mp ha, List.mem_singleton.mp hc] at hne
        exact absurd rfl hne
    · rcases hF with hF | hF
      · subst hF
        simp at hilt
      · right
        obtain ⟨t, ht⟩ := hF
        exact ⟨t, by simpa using ht⟩

end TlPuzzle

namespace TlPuzzle

variable {K : Type} [LinearOrderedCommRing K]

theorem laneFold_inv (full : List (BuffInstance K)) :
    ∀ (R P : List (BuffInstance K)) (ends : List K) (m : List (String × Nat)),
      (P ++ R).Pairwise (fun a b => a.start ≤ b.start) →
      (∀ b ∈ P ++ R, b.start < b.stop) →
      ((P ++ R).map (fun b => b.id)).Nodup →
      (∀ x ∈ P ++ R, x ∈ full) →
      LaneInv full P ends m →
      LaneInv full (P ++ R) (R.foldl laneStep (ends, m)).1
        (R.foldl laneStep (ends, m)).2 := by
  intro R
  induction R with
  | nil =>
    intro P ends m _ _ _ _ h
    simpa using h
  | cons b R' ih =>
    intro P ends m hsort hpos hids hmem h
    have hsplit := List.pairwise_append.mp hsort
    have hsorted_b : ∀ y ∈ P, y.start ≤ b.start := fun y hy =>
      hsplit.2.2 y hy b (List.mem_cons_self _ _)
    have hidsP_b : ∀ y ∈ P, y.id ≠ b.id := by
      intro y hy hid
      have heq : y = b := List.inj_on_of_nodup_map hids
        (List.mem_append_left _ hy)
        (List.mem_append_right _ (List.mem_cons_self _ _)) hid
      have hnd := hids.of_map
      have hdisj := (List.nodup_append.mp hnd).2.2
      exact hdisj hy (heq ▸ List.mem_cons_self _ _)
    have hposb : b.start < b.stop :=
      hpos b (List.mem_append_right _ (List.mem_cons_self _ _))
    have hmemb : b ∈ full :=
      hmem b (List.mem_append_right _ (List.mem_cons_self _ _))
    have hmemP : ∀ y ∈ P, y ∈ full := fun y hy =>
      hmem y (List.mem_append_left _ hy)
    have hstep := laneStep_inv hsorted_b hposb hidsP_b hmemb hmemP h
    have hassoc : (P ++ [b]) ++ R' = P ++ b :: R' := by simp
    have hrec := ih (P ++ [b]) (laneStep (ends, m) b).1 (laneStep (ends, m) b).2
      (by rw [hassoc]; exact hsort) (by rw [hassoc]; exact hpos)
      (by rw [hassoc]; exact hids) (by rw [hassoc]; exact hmem) hstep
    rw [hassoc] at hrec
    simpa using hrec

/-- C6: `buildBuffLanes` assigns every instance a lane below the lane count,
instances sharing a lane never overlap, for a nonempty input the lane count
is exactly the maximum number of simultaneously active instances (hence
minimal), and an empty input still reports one lane. -/
theorem buildBuffLanes_spec (l : List (BuffInstance K))
    (hpos : ∀ b ∈ l, b.start < b.stop)
    (hids : (l.map (fun b => b.id)).Nodup) :
    (∀ x ∈ l, ∃ n, laneOf (buildBuffLanes l).laneMap x.id = some n ∧
      n < (buildBuffLanes l).laneCount) ∧
    (∀ a ∈ l, ∀ b ∈ l, a ≠ b →
      laneOf (buildBuffLanes l).laneMap a.id =
        laneOf (buildBuffLanes l).laneMap b.id →
      ¬ Overlap a b) ∧
    (l ≠ [] → ∃ t, countActive l t = (buildBuffLanes l).laneCount ∧
      ∀ u, countActive l u ≤ (buildBuffLanes l).laneCount) ∧
    (l = [] → (buildBuffLanes l).laneCount = 1) := by
  have hperm : List.Perm (l.insertionSort startLE) l :=
    List.perm_insertionSort _ _
  have hsort : (l.insertionSort startLE).Pairwise
      (fun a b => a.start ≤ b.start) :=
    List.sorted_insertionSort startLE l
  have hposS : ∀ b ∈ l.insertionSort startLE, b.start < b.stop := fun b hb =>
    hpos b (hperm.mem_iff.mp hb)
  have hidsS : ((l.insertionSort startLE).map (fun b => b.id)).Nodup :=
    ((hperm.map _).nodup_iff).mpr hids
  have hmemS : ∀ x ∈ l.insertionSort startLE, x ∈ l := fun x hx =>
    hperm.mem_iff.mp hx
  have hinv0 : LaneInv l [] ([] : List K) [] := by
    refine ⟨by simp, ?_, by simp, Or.inl rfl⟩
    intro i e hie
    simp at hie
  have hinv := laneFold_inv l (l.insertionSort startLE) [] [] []
    (by simpa using hsort) (by simpa using hposS) (by simpa using hidsS)
    (by simp) hinv0
  rw [List.nil_append] at hinv
  obtain ⟨hA, hC, hE, hF⟩ := hinv
  have hmap_eq : (buildBuffLanes l).laneMap =
      ((l.insertionSort startLE).foldl laneStep ([], [])).2 := rfl
  have hcount_eq : (buildBuffLanes l).laneCount =
      max 1 ((l.insertionSort startLE).foldl laneStep ([], [])).1.length := rfl
  refine ⟨?_, ?_, ?_, ?_⟩
  · intro x hx
    obtain ⟨n, hn, hlt⟩ := hA x (hperm.mem_iff.mpr hx)
    refine ⟨n, ?_, ?_⟩
    · rw [hmap_eq]; exact hn
    · rw [hcount_eq]
      exact lt_of_lt_of_le hlt (le_max_right _ _)
  · intro a ha b hb hab hl
    have hne_id : a.id ≠ b.id := by
      intro hid
      exact hab (List.inj_on_of_nodup_map hids ha hb hid)
    rw [hmap_eq] at hl
    rcases hE a (hperm.mem_iff.mpr ha) b (hperm.mem_iff.mpr hb) hne_id hl with
      h | h
    · rintro ⟨h1, h2⟩
      exact absurd (lt_of_le_of_lt h h2) (lt_irrefl _)
    · rintro ⟨h1, h2⟩
      exact absurd (lt_of_le_of_lt h h1) (lt_irrefl _)
  · intro hne
    have hS_ne : l.insertionSort startLE ≠ [] := by
      intro hnil
      have hpn : ([] : List (BuffInstance K)).Perm l := hnil ▸ hperm
      exact hne hpn.nil_eq.symm
    obtain ⟨x, hx⟩ := List.exists_mem_of_ne_nil _ hS_ne
    obtain ⟨n, _, hlt⟩ := hA x hx
    have hlen_pos :
        1 ≤ ((l.insertionSort startLE).foldl laneStep ([], [])).1.length := by
      omega
    have hmax : (buildBuffLanes l).laneCount =
        ((l.insertionSort startLE).foldl laneStep ([], [])).1.length := by
      rw [hcount_eq]
      omega
    have hupper : ∀ u, countActive l u ≤
        ((l.insertionSort startLE).foldl laneStep ([], [])).1.length := by
      intro u
      refine countActive_le_of_lanes l u
        ((l.insertionSort startLE).foldl laneStep ([], [])).2 _ hids ?_ ?_
      · intro y hy
        exact hA y (hperm.mem_iff.mpr hy)
      · intro a ha b hb hne' hl
        exact hE a (hperm.mem_iff.mpr ha) b (hperm.mem_iff.mpr hb) hne' hl
    rcases hF with hF | hF
    · rw [hF] at hlen_pos
      simp at hlen_pos
    · obtain ⟨t, ht⟩ := hF
      refine ⟨t, ?_, ?_⟩
      · rw [hmax]
        exact le_antisymm (hupper t) ht
      · intro u
        rw [hmax]
        exact hupper u
  · intro hnil
    subst hnil
    rfl

theorem buildBuffLanes_spec_witness :
    (∀ x ∈ [sampleInst1, sampleInst2], ∃ n,
      laneOf (buildBuffLanes [sampleInst1, sampleInst2]).laneMap x.id = some n ∧
      n < (buildBuffLanes [sampleInst1, sampleInst2]).laneCount) ∧
    (∀ a ∈ [sampleInst1, sampleInst2], ∀ b ∈ [sampleInst1, sampleInst2],
      a ≠ b →
      laneOf (buildBuffLanes [sampleInst1, sampleInst2]).laneMap a.id =
        laneOf (buildBuffLanes [sampleInst1, sampleInst2]).laneMap b.id →
      ¬ Overlap a b) ∧
    ([sampleInst1, sampleInst2] ≠ [] → ∃ t,
      countActive [sampleInst1, sampleInst2] t =
        (buildBuffLanes [sampleInst1, sampleInst2]).laneCount ∧
      ∀ u, countActive [sampleInst1, sampleInst2] u ≤
        (buildBuffLanes [sampleInst1, sampleInst2]).laneCount) ∧
    ([sampleInst1, sampleInst2] = [] →
      (buildBuffLanes [sampleInst1, sampleInst2]).laneCount = 1) :=
  buildBuffLanes_spec [sampleInst1, sampleInst2] (by decide) (by decide)

end TlPuzzle

namespace TlPuzzle

variable {K : Type} [LinearOrderedCommRing K]

/-- The enemy configuration record `{ id, name, stats }` shared and restored
with the state. -/
structure EnemyConfig (K : Type) where
  id : String
  name : String
  stats : Stats K
deriving DecidableEq, Repr

/-- The decoded payload of a share token: exactly the record `serializeState`
writes into the JSON body.  The byte-level codec (`JSON.stringify` composed
with `base64UrlEncode`, and its inverse) is injective on this record and is
modelled as the identity on it; what the claim is about — the normalisation
applied to the decoded events before they reach the engine — is modelled
faithfully below. -/
structure SerializedState (K : Type) where
  version : Nat
  students : List (Student K)
  events : List (ExEvent K)
  nsEnabled : List (String × Bool)
  nsTargets : List (String × TargetOverride)
  timelineSeconds : K
  timeStep : K
  enemy : EnemyConfig K
deriving DecidableEq, Repr

def serializeState (students : List (Student K)) (events : List (ExEvent K))
    (nsEnabled : List (String × Bool))
    (nsTargets : List (String × TargetOverride))
    (timelineSeconds timeStep : K) (enemy : EnemyConfig K) :
    SerializedState K :=
  ⟨1, students, events, nsEnabled, nsTargets, timelineSeconds, timeStep, enemy⟩

/-- `parseState` decodes the token and rejects a payload without a `students`
field; on a structurally well-formed payload (the only kind `serializeState`
produces, and an array — even empty — is truthy) it returns it unchanged. -/
def parseState (value : SerializedState K) : Option (SerializedState K) :=
  some value

/-- `normalizeEvents` from the source, on structured events (every field the
source reads is present on a serialized `ExEvent`, so the `?? / exId` recovery
arms reduce to the fields themselves, and the target-mode whitelist
`all | student | enemy` else `self` is the identity on the four-valued
mode). -/
def normalizeEvents (students : List (Student K)) (events : List (ExEvent K))
    (timeStep : K) : List (ExEvent K) :=
  events.flatMap (fun evt =>
    if evt.id = "" ∨ evt.studentId = "" then []
    else
      match findStudent students evt.studentId with
      | none => []
      | some student =>
        if evt.skillId = "" then []
        else
          match findSkill student evt.skillType evt.skillId with
          | none => []
          | some skill =>
            [{ id := evt.id
               studentId := evt.studentId
               skillType := evt.skillType
               skillId := evt.skillId
               start := evt.start
               duration := some (evt.duration.getD (getSkillDuration
                 skill.buffs (max timeStep DEFAULT_EX_EVENT_DURATION)))
               target := evt.target
               targetStudentIds :=
                 match evt.target with
                 | .student =>
                   if optNonempty evt.targetStudentIds then
                     evt.targetStudentIds
                   else some [evt.studentId]
                 | _ => none
               buffTargets := evt.buffTargets }])

/-- `clamp(value, min, max) = Math.max(min, Math.min(max, value))`. -/
def clamp (value lo hi : K) : K :=
  max lo (min hi value)

/-- `clampEventsToTimeline` from the source.  The source type guarantees a
numeric `duration`; the `none` arm is unreachable on the load path, where
every event comes out of `normalizeEvents` with a duration. -/
def clampEventsToTimeline (events : List (ExEvent K))
    (timelineSeconds timeStep : K) : List (ExEvent K) :=
  events.map (fun evt =>
    match evt.duration with
    | none => evt
    | some d =>
      let maxStart := max 0 (timelineSeconds - d)
      let nextStart := clamp evt.start 0 maxStart
      let nextDuration := clamp d timeStep (timelineSeconds - nextStart)
      { evt with start := nextStart, duration := some nextDuration })

/-- The events the engine runs on after loading a share token, as in
`handleLoadFromUrl`: normalize against the restored students, then clamp to
the restored timeline. -/
def roundTripEvents (parsed : SerializedState K) : List (ExEvent K) :=
  clampEventsToTimeline
    (normalizeEvents parsed.students parsed.events parsed.timeStep)
    parsed.timelineSeconds parsed.timeStep

/-- Conditions under which one event survives the load-path normalisation and
clamping unchanged: truthy id, student id and skill id; the student and skill
resolve; an explicit duration of at least one tick fitting inside the
timeline at its start; and a target list that is nonempty exactly in
`student` mode. -/
def EventRoundTrips (students : List (Student K))
    (timelineSeconds timeStep : K) (evt : ExEvent K) : Prop :=
  evt.id ≠ "" ∧ evt.studentId ≠ "" ∧ evt.skillId ≠ "" ∧
  ((findStudent students evt.studentId).bind
    (fun student => findSkill student evt.skillType evt.skillId)).isSome
      = true ∧
  evt.duration.isSome = true ∧
  timeStep ≤ evt.duration.getD 0 ∧
  0 ≤ evt.start ∧
  evt.start + evt.duration.getD 0 ≤ timelineSeconds ∧
  (evt.target = .student → optNonempty evt.targetStudentIds = true) ∧
  (evt.target ≠ .student → evt.targetStudentIds = none)

instance (students : List (Student K)) (tl ts : K) (evt : ExEvent K) :
    Decidable (EventRoundTrips students tl ts evt) := by
  unfold EventRoundTrips; infer_instance

theorem normalizeEvents_eq_self (students : List (Student K)) (tl ts : K)
    (evt : ExEvent K) (h : EventRoundTrips students tl ts evt) :
    normalizeEvents students [evt] ts = [evt] := by
  obtain ⟨h1, h2, h3, h4, h5, h6, h7, h8, h9, h10⟩ := h
  obtain ⟨d, hd⟩ := Option.isSome_iff_exists.mp h5
  unfold normalizeEvents
  simp only [List.flatMap_cons, List.flatMap_nil, List.append_nil]
  rw [if_neg (by simp [h1, h2])]
  cases hst : findStudent students evt.studentId with
  | none =>
    rw [hst] at h4
    simp at h4
  | some student =>
    rw [hst] at h4
    simp only [Option.some_bind] at h4
    simp only [hst]
    rw [if_neg h3]
    cases hsk : findSkill student evt.skillType evt.skillId with
    | none =>
      rw [hsk] at h4
      simp at h4
    | some skill =>
      simp only [hsk]
      cases evt with
      | mk eid esid esty eski est edu etg etsi ebt =>
        simp only at hd h9 h10 ⊢
        rw [hd]
        simp only [Option.getD_some]
        cases etg with
        | student =>
          rw [if_pos (h9 rfl)]
        | self =>
          rw [(h10 (by simp)).symm]
        | all =>
          rw [(h10 (by simp)).symm]
        | enemy =>
          rw [(h10 (by simp)).symm]

theorem clampEvents_eq_self (tl ts : K) (evt : ExEvent K)
    (hd : evt.duration.isSome = true)
    (h6 : ts ≤ evt.duration.getD 0) (h7 : 0 ≤ evt.start)
    (h8 : evt.start + evt.duration.getD 0 ≤ tl) :
    clampEventsToTimeline [evt] tl ts = [evt] := by
  obtain ⟨d, hdd⟩ := Option.isSome_iff_exists.mp hd
  rw [hdd] at h6 h8
  simp only [Option.getD_some] at h6 h8
  unfold clampEventsToTimeline
  simp only [List.map_cons, List.map_nil, hdd]
  have hstart : clamp evt.start 0 (max 0 (tl - d)) = evt.start := by
    unfold clamp
    have h1 : evt.start ≤ tl - d := by linarith
    have h2 : evt.start ≤ max 0 (tl - d) :=
      le_trans h1 (le_max_right _ _)
    rw [min_eq_right h2, max_eq_right h7]
  rw [hstart]
  have hdur : clamp d ts (tl - evt.start) = d := by
    unfold clamp
    have h1 : d ≤ tl - evt.start := by linarith
    rw [min_eq_right h1, max_eq_right h6]
  rw [hdur]
  cases evt with
  | mk eid esid esty eski est edu etg etsi ebt =>
    simp only at hdd ⊢
    rw [hdd]

theorem roundTrip_events_eq (students : List (Student K)) (tl ts : K)
    (events : List (ExEvent K))
    (h : ∀ evt ∈ events, EventRoundTrips students tl ts evt) :
    clampEventsToTimeline (normalizeEvents students events ts) tl ts
      = events := by
  induction events with
  | nil => rfl
  | cons e es ih =>
    have he := h e (List.mem_cons_self _ _)
    have hes := ih (fun x hx => h x (List.mem_cons_of_mem _ hx))
    have hsplit : normalizeEvents students (e :: es) ts =
        normalizeEvents students [e] ts ++ normalizeEvents students es ts := by
      unfold normalizeEvents
      simp
    rw [hsplit]
    unfold clampEventsToTimeline
    rw [List.map_append]
    have h1 : clampEventsToTimeline (normalizeEvents students [e] ts) tl ts
        = [e] := by
      rw [normalizeEvents_eq_self students tl ts e he]
      exact clampEvents_eq_self tl ts e he.2.2.2.2.1 he.2.2.2.2.2.1
        he.2.2.2.2.2.2.1 he.2.2.2.2.2.2.2.1
    unfold clampEventsToTimeline at h1 hes
    rw [h1, hes]
    rfl

end TlPuzzle

namespace TlPuzzle

variable {K : Type} [LinearOrderedCommRing K]

/-- A `self`-mode event carrying a stale explicit target list together with a
per-effect override in `student` mode whose own id list is empty: before
serialization the resolver falls back to the event-level list, after the
round trip `normalizeEvents` has erased that list (the mode is not
`student`), so the resolver falls back to the owner instead. -/
def cexEventC7 : ExEvent ℤ :=
  ⟨"e7", "s.a", .ex, "ex1", 0, some 5, .self, some ["s.b"],
    some [("b1", ⟨.student, some []⟩)]⟩

def cexEnemyC7 : EnemyConfig ℤ :=
  ⟨"enemy", "Boss", ⟨500, 100, 100⟩⟩

/-- C7 counterexample: a state on which decoding the share token and
normalizing the events changes the engine output — the pre-serialization
state yields an instance targeting `s.b`, the round-tripped state yields one
targeting the owner `s.a`. -/
theorem round_trip_changes_engine_output :
    ∃ parsed, parseState (serializeState [sampleStudentA, sampleStudentB]
        [cexEventC7] [] [] 10 1 cexEnemyC7) = some parsed ∧
      buildBuffInstances parsed.students (roundTripEvents parsed)
          parsed.nsEnabled parsed.nsTargets parsed.timelineSeconds
          parsed.timeStep ≠
        buildBuffInstances [sampleStudentA, sampleStudentB] [cexEventC7] [] []
          10 1 := by
  refine ⟨_, rfl, ?_⟩
  decide

/-- C7 (amended): decoding the token produced by `serializeState` with
`parseState` restores every input component unchanged, and — provided each
event survives the load-path normalisation intact (truthy ids, resolvable
student and skill, explicit in-range duration, and a target-id list kept
exactly in `student` mode) — the normalized, clamped events equal the
original ones, so the engine output (resolved instances, per-target lane
assignments, and aggregated stats at every query time) is identical to the
pre-serialization output. -/
theorem round_trip_engine_output (students : List (Student K))
    (events : List (ExEvent K)) (nsEnabled : List (String × Bool))
    (nsTargets : List (String × TargetOverride))
    (timelineSeconds timeStep : K) (enemy : EnemyConfig K)
    (h : ∀ evt ∈ events,
      EventRoundTrips students timelineSeconds timeStep evt) :
    ∃ parsed, parseState (serializeState students events nsEnabled nsTargets
        timelineSeconds timeStep enemy) = some parsed ∧
      parsed.students = students ∧
      parsed.timelineSeconds = timelineSeconds ∧
      parsed.timeStep = timeStep ∧ parsed.enemy = enemy ∧
      roundTripEvents parsed = events ∧
      applyOverwriteRules (buildBuffInstances parsed.students
          (roundTripEvents parsed) parsed.nsEnabled parsed.nsTargets
          parsed.timelineSeconds parsed.timeStep) =
        applyOverwriteRules (buildBuffInstances students events nsEnabled
          nsTargets timelineSeconds timeStep) ∧
      (∀ (target : StatTarget K) (t : K),
        computeStatsAtTime target t (applyOverwriteRules (buildBuffInstances
            parsed.students (roundTripEvents parsed) parsed.nsEnabled
            parsed.nsTargets parsed.timelineSeconds parsed.timeStep)) =
          computeStatsAtTime target t (applyOverwriteRules (buildBuffInstances
            students events nsEnabled nsTargets timelineSeconds timeStep))) ∧
      (∀ tid : String,
        buildBuffLanes ((applyOverwriteRules (buildBuffInstances
            parsed.students (roundTripEvents parsed) parsed.nsEnabled
            parsed.nsTargets parsed.timelineSeconds
            parsed.timeStep)).filter (fun b => b.studentId = tid)) =
          buildBuffLanes ((applyOverwriteRules (buildBuffInstances students
            events nsEnabled nsTargets timelineSeconds
            timeStep)).filter (fun b => b.studentId = tid))) := by
  have hrt : roundTripEvents (serializeState students events nsEnabled
      nsTargets timelineSeconds timeStep enemy) = events :=
    roundTrip_events_eq students timelineSeconds timeStep events h
  refine ⟨_, rfl, rfl, rfl, rfl, rfl, hrt, ?_, ?_, ?_⟩
  · rw [hrt]
    rfl
  · intro target t
    rw [hrt]
    rfl
  · intro tid
    rw [hrt]
    rfl

theorem round_trip_engine_output_witness :
    ∃ parsed, parseState (serializeState [sampleStudentA] [sampleEvent1]
        ([] : List (String × Bool)) [] (60 : ℤ) 1 cexEnemyC7) = some parsed ∧
      parsed.students = [sampleStudentA] ∧
      parsed.timelineSeconds = 60 ∧
      parsed.timeStep = 1 ∧ parsed.enemy = cexEnemyC7 ∧
      roundTripEvents parsed = [sampleEvent1] ∧
      applyOverwriteRules (buildBuffInstances parsed.students
          (roundTripEvents parsed) parsed.nsEnabled parsed.nsTargets
          parsed.timelineSeconds parsed.timeStep) =
        applyOverwriteRules (buildBuffInstances [sampleStudentA]
          [sampleEvent1] [] [] 60 1) ∧
      (∀ (target : StatTarget ℤ) (t : ℤ),
        computeStatsAtTime target t (applyOverwriteRules (buildBuffInstances
            parsed.students (roundTripEvents parsed) parsed.nsEnabled
            parsed.nsTargets parsed.timelineSeconds parsed.timeStep)) =
          computeStatsAtTime target t (applyOverwriteRules (buildBuffInstances
            [sampleStudentA] [sampleEvent1] [] [] 60 1))) ∧
      (∀ tid : String,
        buildBuffLanes ((applyOverwriteRules (buildBuffInstances
            parsed.students (roundTripEvents parsed) parsed.nsEnabled
            parsed.nsTargets parsed.timelineSeconds
            parsed.timeStep)).filter (fun b => b.studentId = tid)) =
          buildBuffLanes ((applyOverwriteRules (buildBuffInstances
            [sampleStudentA] [sampleEvent1] [] [] 60
            1)).filter (fun b => b.studentId = tid))) :=
  round_trip_engine_output [sampleStudentA] [sampleEvent1] [] [] 60 1
    cexEnemyC7 (by decide)

end TlPuzzle
